import Mathlib

/-!
Verification of the promptfile core (src/promptfile/prompt.py, utils.py, types.py).

The embedding works over `List Char` (we abbreviate it `Str`), a faithful pure
model of Python `str` for the ASCII fragment exercised by the code.  Regex
scans (`re.match`, `re.findall`, `re.sub`, `str.replace`) are embedded as
deterministic left-to-right scanners; every scanner that jumps over more than
one character is written with an explicit fuel argument (`fuel = length` is
always enough, every step consumes at least one character), so that all
definitions are structural and evaluate inside the kernel.

The YAML library (`yaml.safe_load` / `yaml.dump` with
`default_flow_style=False, sort_keys=False`) is modelled on the fragment the
repository exercises: a flat mapping whose keys and string values are plain
scalars (emitted as `key: value` lines, insertion order kept) and the `null`
scalar (emitted as the bare word `null`, parsed back to a null value).  Python
`dict` semantics (duplicate insertion overwrites the value but keeps the
original position) are mirrored by `insertDict`.
-/

abbrev Str := List Char

def chars (s : String) : Str := s.data

def nl : Char := Char.ofNat 10

def obrace : Char := Char.ofNat 123

def cbrace : Char := Char.ofNat 125

/-- Python `\s` for the ASCII fragment: space, tab, newline, CR, VT, FF. -/
def isPySpace (c : Char) : Bool :=
  c = ' ' || c = '\t' || c = nl || c = '\r' || c = Char.ofNat 11 || c = Char.ofNat 12

/-- Python `str.strip()`: drop leading and trailing whitespace. -/
def pyStrip (s : Str) : Str :=
  ((s.dropWhile isPySpace).reverse.dropWhile isPySpace).reverse

/-- Boolean prefix test on lists of characters. -/
def lpre : Str → Str → Bool
  | [], _ => true
  | _ :: _, [] => false
  | a :: as, b :: bs => (a == b) && lpre as bs

/-- Leftmost occurrence split: `splitOnFirst pat s = some (pre, post)` iff the
first occurrence of `pat` in `s` is at position `pre.length`, with
`s = pre ++ pat ++ post`.  This is the semantics of a leftmost non-greedy
regex scan for a literal. -/
def splitOnFirst (pat : Str) : Str → Option (Str × Str)
  | [] => if lpre pat [] then some ([], []) else none
  | c :: rest =>
    if lpre pat (c :: rest) then some ([], (c :: rest).drop pat.length)
    else (splitOnFirst pat rest).map fun p => (c :: p.1, p.2)

/-- Split a string on newline characters, Python `str.split("\n")` style
(n separators give n+1 parts). -/
def splitNL : Str → List Str
  | [] => [[]]
  | c :: rest =>
    if c = nl then [] :: splitNL rest
    else
      match splitNL rest with
      | [] => [[c]]
      | p :: ps => (c :: p) :: ps

def strConcat : List Str → Str
  | [] => []
  | x :: xs => x ++ strConcat xs

/-- Python `"\n".join`. -/
def joinNL : List Str → Str
  | [] => []
  | [x] => x
  | x :: xs => x ++ nl :: joinNL xs

/-- Value of `int(ds)` for a nonempty ASCII digit run `ds`. -/
def digitsToNat (ds : Str) : Nat :=
  ds.foldl (fun a c => a * 10 + (c.toNat - 48)) 0

/-- Decimal digits of `n`, the characters of Python `str(n)`. -/
def natChars (n : Nat) : Str := Nat.toDigits 10 n

/-- Values appearing in the modelled YAML header fragment. -/
inductive YVal where
  | vstr (s : Str)
  | vnull
  deriving DecidableEq, Repr

/-- src/promptfile/types.py `Message`: a role and a content string. -/
structure Message where
  role : Str
  content : Str
  deriving DecidableEq, Repr

/-- src/promptfile/prompt.py `Prompt`: model, messages, metadata. -/
structure Prompt where
  model : Option Str
  messages : List Message
  metadata : List (Str × YVal)
  deriving DecidableEq, Repr

/-- The ways `Prompt.load` can fail: `format` is the
`ValueError("Invalid content format, ...")` raised when the front-matter
regex does not match; `header` models the crash on an empty header
(`yaml.safe_load` returns `None`, then `.pop` raises); `config` models a
header the key-value layer cannot parse; `extract` models the `IndexError`
that `_extract_messages` can raise while restoring CDATA placeholders. -/
inductive LoadErr where
  | format
  | header
  | config
  | extract
  deriving DecidableEq, Repr

instance {ε α : Type} [DecidableEq ε] [DecidableEq α] : DecidableEq (Except ε α) := fun x y =>
  match x, y with
  | .error e, .error f =>
    if h : e = f then isTrue (by rw [h]) else isFalse (by simp [h])
  | .error _, .ok _ => isFalse (by simp)
  | .ok _, .error _ => isFalse (by simp)
  | .ok a, .ok b =>
    if h : a = b then isTrue (by rw [h]) else isFalse (by simp [h])

def cdOpen : Str := chars ("<![CDATA[")

def cdClose : Str := chars ("]]>")

def cdph : Str := chars ("CDATA_PLACEHOLDER_")

def cdphText (n : Nat) : Str := cdph ++ natChars n

/-- utils.py `_extract_messages` step 1, `re.sub(r"<!\[CDATA\[(.*?)\]\]>", ...)`:
replace each CDATA section with a numbered placeholder, collecting the
payloads.  `n` is the index of the next section, the fuel starts at the
input length. -/
def cdataAuxF : Nat → Nat → Str → Str × List Str
  | 0, _, s => (s, [])
  | fuel + 1, n, s =>
    match splitOnFirst cdOpen s with
    | none => (s, [])
    | some (pre, rest1) =>
      match splitOnFirst cdClose rest1 with
      | none => (s, [])
      | some (cap, rest2) =>
        let r := cdataAuxF fuel (n + 1) rest2
        (pre ++ cdphText n ++ r.1, cap :: r.2)

def cdataAux (n : Nat) (s : Str) : Str × List Str := cdataAuxF s.length n s

def openerOf (r : Str) : Str := '<' :: r ++ ['>']

def closerOf (r : Str) : Str := '<' :: '/' :: r ++ ['>']

/-- One attempt of `<(role)>(.*?)</\1>` at the current position for a fixed
role: the opener must be a prefix, the content runs to the first closer. -/
def tryRole (r : Str) (s : Str) : Option (Str × Str × Str) :=
  if lpre (openerOf r) s then
    match splitOnFirst (closerOf r) (s.drop (openerOf r).length) with
    | some (cnt, after) => some (r, cnt, after)
    | none => none
  else none

/-- The alternation `system|user|assistant`, tried in the pattern's order. -/
def tryTag (s : Str) : Option (Str × Str × Str) :=
  (tryRole (chars ("system")) s).orElse fun _ =>
    (tryRole (chars ("user")) s).orElse fun _ =>
      tryRole (chars ("assistant")) s

/-- utils.py step 2, `re.findall(r"<(system|user|assistant)>(.*?)</\1>", ...)`:
left-to-right non-overlapping scan; on failure advance one character, on a
match continue after the closing tag. -/
def tagScanF : Nat → Str → List (Str × Str)
  | 0, _ => []
  | fuel + 1, s =>
    match tryTag s with
    | some (r, cnt, after) => (r, cnt) :: tagScanF fuel after
    | none =>
      match s with
      | [] => []
      | _ :: rest => tagScanF fuel rest

def tagScan (s : Str) : List (Str × Str) := tagScanF s.length s

/-- `tagScanF` instrumented with the absolute start position of each match. -/
def tagScanPosF : Nat → Nat → Str → List (Nat × Str × Str)
  | 0, _, _ => []
  | fuel + 1, i, s =>
    match tryTag s with
    | some (r, cnt, after) =>
      (i, r, cnt) :: tagScanPosF fuel (i + (s.length - after.length)) after
    | none =>
      match s with
      | [] => []
      | _ :: rest => tagScanPosF fuel (i + 1) rest

/-- utils.py step 3, `re.sub(r"CDATA_PLACEHOLDER_(\d+)", ...)`: put the
recorded payloads back.  `none` models the `IndexError` raised when the digit
run indexes past the recorded sections. -/
def restoreScanF : Nat → List Str → Str → Option Str
  | 0, _, _ => some []
  | fuel + 1, secs, s =>
    if lpre cdph s then
      let after := s.drop cdph.length
      let ds := after.takeWhile Char.isDigit
      if ds.isEmpty then
        match s with
        | [] => some []
        | c :: rest => (restoreScanF fuel secs rest).map (c :: ·)
      else
        match secs.get? (digitsToNat ds) with
        | some sec => (restoreScanF fuel secs (after.drop ds.length)).map (sec ++ ·)
        | none => none
    else
      match s with
      | [] => some []
      | c :: rest => (restoreScanF fuel secs rest).map (c :: ·)

def restoreScan (secs : List Str) (s : Str) : Option Str :=
  restoreScanF s.length secs s

/-- Run a fallible step over a list, left to right, aborting at the first
failure — the semantics of a Python `for` loop whose body may raise. -/
def optMapM {α β : Type} (f : α → Option β) : List α → Option (List β)
  | [] => some []
  | a :: t =>
    match f a with
    | none => none
    | some b =>
      match optMapM f t with
      | none => none
      | some bs => some (b :: bs)

/-- utils.py `_extract_messages`: CDATA pass, tag scan, then per-match
restore and strip.  `none` is the `IndexError` crash. -/
def extractMessages (body : Str) : Option (List Message) :=
  let r := cdataAux 0 body
  optMapM
    (fun rc =>
      (restoreScan r.2 rc.2).map fun restored => Message.mk rc.1 (pyStrip restored))
    (tagScan r.1)

/-- Python dict insertion: an existing key keeps its position and gets the
new value, a fresh key is appended. -/
def insertDict : List (Str × YVal) → Str → YVal → List (Str × YVal)
  | [], k, v => [(k, v)]
  | (k', v') :: t, k, v =>
    if k' == k then (k', v) :: t else (k', v') :: insertDict t k v

/-- One header line of the modelled YAML fragment: `key: value`, or a line
ending in a bare colon for a null value. -/
def parseLine (l : Str) : Option (Str × YVal) :=
  match splitOnFirst (chars (": ")) l with
  | some (k, v) => if v == chars ("null") then some (k, .vnull) else some (k, .vstr v)
  | none =>
    if l ≠ [] ∧ l.getLast? = some ':' then some (l.dropLast, .vnull) else none

/-- Parse header lines one by one into a dict, Python `dict` insertion
semantics; a malformed line is a `.config` failure. -/
def parseLines (acc : List (Str × YVal)) : List Str → Except LoadErr (List (Str × YVal))
  | [] => .ok acc
  | l :: t =>
    match parseLine l with
    | some (k, v) => parseLines (insertDict acc k v) t
    | none => .error .config

/-- Model of `yaml.safe_load(yaml_section.strip())` followed by the `dict`
accesses in `Prompt.load`, on the flat plain-scalar fragment.  An empty
header yields `.header` (in Python, `None.pop` raises `AttributeError`); a
line that is not a `key: value` pair yields `.config`. -/
def parseYaml (h : Str) : Except LoadErr (List (Str × YVal)) :=
  let stripped := pyStrip h
  if stripped = [] then .error .header
  else parseLines [] (splitNL stripped)

/-- Scan for the end of the front matter: the shortest nonempty prefix that
ends in a newline and is followed by `---\n` (the non-greedy `(.*?\n)---\n`). -/
def headerSearch : Str → Option (Str × Str)
  | [] => none
  | c :: rest =>
    if c = nl ∧ lpre (chars ("---\n")) rest then some ([c], rest.drop 4)
    else (headerSearch rest).map fun p => (c :: p.1, p.2)

/-- The anchored match `re.match(r"^\s*---\n(.*?\n)---\n(.*)$", content,
re.DOTALL)`: `\s*` must consume the maximal leading whitespace run (the next
literal is a dash, which is not whitespace), then `---\n`, then the
non-greedy header search. -/
def shapeSplit (content : Str) : Option (Str × Str) :=
  let rest := content.dropWhile isPySpace
  if lpre (chars ("---\n")) rest then headerSearch (rest.drop 4) else none

/-- prompt.py `Prompt.load`. -/
def Prompt.load (content : Str) : Except LoadErr Prompt :=
  match shapeSplit content with
  | none => .error .format
  | some (hdr, body) =>
    match parseYaml hdr with
    | .error e => .error e
    | .ok cfg =>
      match extractMessages body with
      | none => .error .extract
      | some msgs =>
        .ok
          { model :=
              match List.lookup (chars ("model")) cfg with
              | some (.vstr s) => some s
              | _ => none
            messages := msgs
            metadata := cfg.filter fun kv => !(kv.1 == chars ("model")) }

def renderVal : YVal → Str
  | .vstr s => s
  | .vnull => chars ("null")

/-- The header value slot for the `model` field: `None` dumps as a null. -/
def modelVal : Option Str → YVal
  | some s => .vstr s
  | none => .vnull

/-- One `<role>\ncontent\n</role>` block of `Prompt.dump`. -/
def renderBlock (m : Message) : Str :=
  openerOf m.role ++ nl :: m.content ++ nl :: closerOf m.role

/-- The header dict `{"model": self.model, **self.metadata}` of `Prompt.dump`,
with Python dict update semantics. -/
def headerPairs (p : Prompt) : List (Str × YVal) :=
  p.metadata.foldl (fun acc kv => insertDict acc kv.1 kv.2)
    [(chars ("model"), modelVal p.model)]

/-- `yaml.dump(..., default_flow_style=False, sort_keys=False)` on the flat
plain-scalar fragment: one `key: value` line per pair, insertion order. -/
def yamlDump (pairs : List (Str × YVal)) : Str :=
  strConcat (pairs.map fun kv => kv.1 ++ chars (": ") ++ renderVal kv.2 ++ [nl])

/-- prompt.py `Prompt.dump`: `f"---\n{yaml_header}---\n{messages_content}\n"`. -/
def Prompt.dump (p : Prompt) : Str :=
  chars ("---\n") ++ yamlDump (headerPairs p) ++ chars ("---\n") ++
    joinNL (p.messages.map renderBlock) ++ [nl]

/-- Character class `[^}\s]` of the placeholder pattern. -/
def phChar (c : Char) : Bool := !(c == cbrace || isPySpace c)

/-- prompt.py `re.findall(r"(?<!\{)\{([^}\s]+)\}(?!\})", content)`: scan with
the previous character tracked for the lookbehind; on a match resume after
the closing brace, otherwise advance one character. -/
def phScanF : Nat → Option Char → Str → List Str
  | 0, _, _ => []
  | fuel + 1, prev, s =>
    match s with
    | [] => []
    | c :: rest =>
      if (c == obrace) && !(prev == some obrace) then
        let run := rest.takeWhile phChar
        let after := rest.drop run.length
        if (!run.isEmpty) && (after.head? == some cbrace)
            && !((after.drop 1).head? == some cbrace) then
          run :: phScanF fuel (some cbrace) (after.drop 1)
        else phScanF fuel (some c) rest
      else phScanF fuel (some c) rest

/-- The placeholder scan from an arbitrary previous character. -/
def phRun (prev : Option Char) (s : Str) : List Str := phScanF s.length prev s

/-- The previous-character value after scanning over `l`. -/
def prevAfter (l : Str) (prev : Option Char) : Option Char :=
  match l with
  | [] => prev
  | c :: t => prevAfter t (some c)

def phFind (c : Str) : List Str := phScanF c.length none c

/-- Python `str.replace(pat, val)` for a nonempty `pat`: replace every
non-overlapping occurrence, scanning left to right, never rescanning the
inserted text. -/
def replaceAllF : Nat → Str → Str → Str → Str
  | 0, _, _, s => s
  | fuel + 1, pat, val, s =>
    if (!pat.isEmpty) && lpre pat s then
      val ++ replaceAllF fuel pat val (s.drop pat.length)
    else
      match s with
      | [] => []
      | c :: rest => c :: replaceAllF fuel pat val rest

def pyReplace (pat val s : Str) : Str := replaceAllF s.length pat val s

/-- The per-message body of `Prompt.format`: find the placeholders of the
original content, then fold `str.replace` over them for the keys present in
the mapping.  The mapping holds the already `str()`-converted values; the
unresolved-placeholder bookkeeping has no observable effect (the print is
commented out) and is dropped. -/
def formatContent (kw : List (Str × Str)) (c : Str) : Str :=
  (phFind c).foldl
    (fun acc p =>
      match List.lookup p kw with
      | some v => pyReplace (obrace :: p ++ [cbrace]) v acc
      | none => acc)
    c

/-- prompt.py `Prompt.format`, value level: `copy.deepcopy` followed by the
in-place content updates is, on values, a rebuild with formatted contents. -/
def Prompt.format (p : Prompt) (kw : List (Str × Str)) : Prompt :=
  { p with
    messages := p.messages.map fun m => { m with content := formatContent kw m.content } }

def fmtOne (kw : List (Str × Str)) (m : Message) : Message :=
  ⟨m.role, formatContent kw m.content⟩

/-- prompt.py `Prompt.format`, heap level: the message dicts live in a store
and the document holds references.  `copy.deepcopy` allocates fresh cells for
the referenced messages, then the loop mutates only the fresh cells.
Returns the store after the call and the references of the new document. -/
def formatHeap (store : List Message) (refs : List Nat) (kw : List (Str × Str)) :
    List Message × List Nat :=
  let n := store.length
  let copies := refs.map fun r => (store.get? r).getD ⟨[], []⟩
  let store₁ := store ++ copies
  let newRefs := (List.range refs.length).map (· + n)
  let store₂ := newRefs.foldl
    (fun st r =>
      match st.get? r with
      | some m => st.set r (fmtOne kw m)
      | none => st)
    store₁
  (store₂, newRefs)

/-- Modelled from the spec (claim C2 refinement): the required front-matter
shape, stated in the spec's words — optional leading whitespace, a line of
three dashes, a header section (ending at a line boundary), a second line of
three dashes, then the body as the remainder. -/
def specShape (content : Str) : Prop :=
  ∃ ws hdr body,
    content = ws ++ chars ("---\n") ++ hdr ++ chars ("---\n") ++ body ∧
    (∀ c ∈ ws, isPySpace c = true) ∧ hdr ≠ [] ∧ hdr.getLast? = some nl

/-- Plain-scalar characters of the modelled YAML fragment. -/
def plainCharB (c : Char) : Bool :=
  c.isAlpha || c.isDigit || c == '-' || c == '_'

/-- Words that PyYAML's resolver would turn into non-string scalars. -/
def badWords : List Str :=
  [chars ("null"), chars ("Null"), chars ("NULL"),
   chars ("true"), chars ("True"), chars ("TRUE"),
   chars ("false"), chars ("False"), chars ("FALSE"),
   chars ("yes"), chars ("Yes"), chars ("YES"),
   chars ("no"), chars ("No"), chars ("NO"),
   chars ("on"), chars ("On"), chars ("ON"),
   chars ("off"), chars ("Off"), chars ("OFF"),
   chars ("y"), chars ("Y"), chars ("n"), chars ("N")]

/-- A string PyYAML round-trips verbatim as a plain scalar: nonempty,
alphabetic first character, plain characters only, not a resolver word. -/
def plainSafeB (s : Str) : Bool :=
  (match s.head? with | some c => c.isAlpha | none => false) &&
    s.all plainCharB && !(badWords.contains s)

/-- Round-trip safety of one header value: a plain-safe string or null. -/
def yvalOk : YVal → Prop
  | .vstr s => plainSafeB s = true
  | .vnull => True

/-- One metadata pair is round-trip safe: plain-scalar key distinct from
`model`, plain-scalar or null value. -/
def lineOkB (k : Str) (v : YVal) : Bool :=
  plainSafeB k && !(k == chars ("model")) &&
    (match v with | .vstr s => plainSafeB s | .vnull => true)

def keysDistinctB : List (Str × YVal) → Bool
  | [] => true
  | (k, _) :: t => !(t.any fun kv => kv.1 == k) && keysDistinctB t

/-- A message with one of the three recognized roles and trimmed content. -/
def msgOkB (m : Message) : Bool :=
  (m.role == chars ("system") || m.role == chars ("user")
      || m.role == chars ("assistant")) &&
    (pyStrip m.content == m.content)

/-- Round-trip safety of the rendered message blocks against the suffix that
follows them in the dumped body: in each block the first occurrence of the
closing tag is the block's own closer, and the raw matched content survives
the placeholder-restoring pass unchanged. -/
def blocksOkB : List Message → Str → Bool
  | [], _ => true
  | m :: ms, tail =>
    let rest :=
      match ms with
      | [] => tail
      | _ :: _ => nl :: (joinNL (ms.map renderBlock) ++ tail)
    (splitOnFirst (closerOf m.role) (nl :: m.content ++ nl :: closerOf m.role ++ rest)
        == some (nl :: m.content ++ [nl], rest)) &&
      (restoreScan [] (nl :: m.content ++ [nl]) == some (nl :: m.content ++ [nl])) &&
      blocksOkB ms tail

/-- The dumped body of a prompt. -/
def bodyStr (p : Prompt) : Str := joinNL (p.messages.map renderBlock) ++ [nl]

/-- Validity of a header/messages combination for the round trip: the header
scalars are plain-safe, the metadata keys are distinct and none is `model`,
every message has a recognized role and trimmed content, no content smuggles
a CDATA opener into the body, and the blocks are round-trip safe. -/
def promptSafeB (p : Prompt) : Bool :=
  (match p.model with | none => true | some m => plainSafeB m) &&
    p.metadata.all (fun kv => lineOkB kv.1 kv.2) &&
    keysDistinctB p.metadata &&
    p.messages.all msgOkB &&
    blocksOkB p.messages [nl] &&
    (splitOnFirst cdOpen (bodyStr p) == none)

/-! ## Basic lemmas about the scanners -/

theorem lpre_append (a b : Str) : lpre a (a ++ b) = true := by
  induction a with
  | nil => rfl
  | cons c t ih => simp [lpre, ih]

theorem lpre_eq_append {p s : Str} (h : lpre p s = true) :
    s = p ++ s.drop p.length := by
  induction p generalizing s with
  | nil => simp
  | cons c t ih =>
    cases s with
    | nil => simp [lpre] at h
    | cons d r =>
      simp only [lpre, Bool.and_eq_true, beq_iff_eq] at h
      obtain ⟨rfl, h2⟩ := h
      simpa using ih h2

theorem lpre_cons_false {x c : Char} (t r : Str) (h : x ≠ c) :
    lpre (x :: t) (c :: r) = false := by
  simp [lpre, h]

theorem sof_sound {pat s pre post : Str}
    (h : splitOnFirst pat s = some (pre, post)) : s = pre ++ pat ++ post := by
  induction s generalizing pre with
  | nil =>
    simp only [splitOnFirst] at h
    split at h
    · rename_i hp
      cases pat with
      | nil => simp_all
      | cons c t => simp [lpre] at hp
    · exact absurd h (by simp)
  | cons c rest ih =>
    simp only [splitOnFirst] at h
    split at h
    · rename_i hp
      simp only [Option.some.injEq, Prod.mk.injEq] at h
      obtain ⟨rfl, rfl⟩ := h
      simpa using lpre_eq_append hp
    · simp only [Option.map_eq_some'] at h
      obtain ⟨⟨a, b⟩, hab, hh⟩ := h
      simp only [Prod.mk.injEq] at hh
      obtain ⟨rfl, rfl⟩ := hh
      simp [ih hab]

theorem sof_none_cons {pat : Str} {c : Char} {rest : Str}
    (h : lpre pat (c :: rest) = false) :
    splitOnFirst pat (c :: rest) =
      (splitOnFirst pat rest).map fun p => (c :: p.1, p.2) := by
  simp [splitOnFirst, h]

theorem sof_hit {pat : Str} (h : pat ≠ []) (b : Str) :
    splitOnFirst pat (pat ++ b) = some ([], b) := by
  cases pat with
  | nil => exact absurd rfl h
  | cons c t =>
    rw [List.cons_append, splitOnFirst]
    have hp : lpre (c :: t) (c :: (t ++ b)) = true := by
      have := lpre_append (c :: t) b
      rwa [List.cons_append] at this
    simp only [hp, if_true]
    simp [List.drop_left]

/-! ## pyStrip lemmas -/

theorem head_dropWhile_false {p : Char → Bool} {l : Str} {c : Char}
    (h : (l.dropWhile p).head? = some c) : p c = false := by
  induction l with
  | nil => simp [List.dropWhile] at h
  | cons d r ih =>
    by_cases hd : p d
    · rw [List.dropWhile_cons_of_pos hd] at h
      exact ih h
    · rw [List.dropWhile_cons_of_neg hd] at h
      simp only [List.head?_cons, Option.some.injEq] at h
      subst h
      simpa using hd

theorem dropWhile_eq_self_of_head {p : Char → Bool} {l : Str}
    (h : ∀ c, l.head? = some c → p c = false) : l.dropWhile p = l := by
  cases l with
  | nil => rfl
  | cons c r =>
    have := h c rfl
    rw [List.dropWhile_cons_of_neg (by simp [this])]

theorem pyStrip_cons_space {c : Char} (s : Str) (h : isPySpace c = true) :
    pyStrip (c :: s) = pyStrip s := by
  simp [pyStrip, List.dropWhile_cons_of_pos h]

theorem pyStrip_append_space {c : Char} (s : Str) (h : isPySpace c = true) :
    pyStrip (s ++ [c]) = pyStrip s := by
  unfold pyStrip
  rw [List.dropWhile_append]
  cases he : (s.dropWhile isPySpace).isEmpty with
  | true =>
    have hs : s.dropWhile isPySpace = [] := by
      simpa [List.isEmpty_iff] using he
    simp [List.dropWhile, h, hs]
  | false =>
    simp only [he, Bool.false_eq_true, if_false]
    rw [List.reverse_append]
    simp only [List.reverse_singleton, List.singleton_append]
    rw [List.dropWhile_cons_of_pos h]

theorem pyStrip_idem (s : Str) : pyStrip (pyStrip s) = pyStrip s := by
  unfold pyStrip
  set a := s.dropWhile isPySpace with ha
  set b := a.reverse.dropWhile isPySpace with hb
  have hbb : b.dropWhile isPySpace = b :=
    dropWhile_eq_self_of_head fun c hc => head_dropWhile_false hc
  have hres : b.reverse.dropWhile isPySpace = b.reverse := by
    apply dropWhile_eq_self_of_head
    intro c hc
    rw [List.head?_reverse] at hc
    cases hb0 : b with
    | nil => rw [hb0] at hc; simp at hc
    | cons d r =>
      have hsuff : b <:+ a.reverse := hb ▸ List.dropWhile_suffix isPySpace
      obtain ⟨pre, hpre⟩ := hsuff
      have hgl : a.reverse.getLast? = some c := by
        rw [← hpre, List.getLast?_append_of_ne_nil pre (show b ≠ [] by rw [hb0]; simp)]
        exact hc
      rw [List.getLast?_reverse] at hgl
      exact head_dropWhile_false (ha ▸ hgl)
  rw [hres, List.reverse_reverse, hbb]

/-! ## tryTag and the tag scanner -/

theorem tryRole_sound {r0 s r cnt after : Str}
    (h : tryRole r0 s = some (r, cnt, after)) :
    r = r0 ∧ s = openerOf r0 ++ cnt ++ closerOf r0 ++ after := by
  unfold tryRole at h
  split at h
  · rename_i hp
    cases hm : splitOnFirst (closerOf r0) (s.drop (openerOf r0).length) with
    | none => rw [hm] at h; simp at h
    | some p =>
      obtain ⟨cnt', after'⟩ := p
      rw [hm] at h
      simp only [Option.some.injEq, Prod.mk.injEq] at h
      obtain ⟨rfl, rfl, rfl⟩ := h
      refine ⟨rfl, ?_⟩
      have h1 := lpre_eq_append hp
      have h2 := sof_sound hm
      conv_lhs => rw [h1]
      rw [h2]
      simp [List.append_assoc]
  · simp at h

theorem tryTag_sound {s r cnt after : Str} (h : tryTag s = some (r, cnt, after)) :
    (r = chars ("system") ∨ r = chars ("user") ∨ r = chars ("assistant")) ∧
      s = openerOf r ++ cnt ++ closerOf r ++ after := by
  unfold tryTag at h
  cases h1 : tryRole (chars ("system")) s with
  | some v =>
    rw [h1] at h
    simp only [Option.orElse] at h
    obtain ⟨rfl, hd⟩ := tryRole_sound (h1.trans h)
    exact ⟨Or.inl rfl, hd⟩
  | none =>
    rw [h1] at h
    simp only [Option.orElse] at h
    cases h2 : tryRole (chars ("user")) s with
    | some v =>
      rw [h2] at h
      simp only at h
      obtain ⟨rfl, hd⟩ := tryRole_sound (h2.trans h)
      exact ⟨Or.inr (Or.inl rfl), hd⟩
    | none =>
      rw [h2] at h
      simp only at h
      obtain ⟨rfl, hd⟩ := tryRole_sound h
      exact ⟨Or.inr (Or.inr rfl), hd⟩

theorem tryTag_shrink {s r cnt after : Str} (h : tryTag s = some (r, cnt, after)) :
    after.length < s.length := by
  obtain ⟨-, hdec⟩ := tryTag_sound h
  rw [hdec]
  simp [openerOf, closerOf]
  omega

theorem tryRole_not_open (r0 : Str) {c : Char} {s : Str} (h : c ≠ '<') :
    tryRole r0 (c :: s) = none := by
  have hl : lpre (openerOf r0) (c :: s) = false := by
    rw [openerOf]
    exact lpre_cons_false _ _ fun hh => h hh.symm
  unfold tryRole
  rw [hl]
  simp

theorem tryTag_not_open {c : Char} {s : Str} (h : c ≠ '<') :
    tryTag (c :: s) = none := by
  unfold tryTag
  rw [tryRole_not_open _ h, tryRole_not_open _ h, tryRole_not_open _ h]
  rfl

theorem tagScanF_nil : ∀ f, tagScanF f [] = [] := by
  intro f
  cases f with
  | zero => rfl
  | succ n => rfl

theorem tagScanF_congr :
    ∀ f1 f2 s, s.length ≤ f1 → s.length ≤ f2 → tagScanF f1 s = tagScanF f2 s := by
  intro f1
  induction f1 with
  | zero =>
    intro f2 s h1 h2
    have hs : s = [] := by cases s with | nil => rfl | cons a b => simp at h1
    subst hs
    rw [tagScanF_nil, tagScanF_nil]
  | succ k ih =>
    intro f2 s h1 h2
    cases s with
    | nil => rw [tagScanF_nil, tagScanF_nil]
    | cons c rest =>
      cases f2 with
      | zero => simp at h2
      | succ m =>
        simp only [tagScanF]
        cases htt : tryTag (c :: rest) with
        | some x =>
          obtain ⟨r, cnt, after⟩ := x
          simp only
          have hlt : after.length < (c :: rest).length := tryTag_shrink htt
          simp only [List.length_cons] at hlt h1 h2
          rw [ih m after (by omega) (by omega)]
        | none =>
          simp only
          simp only [List.length_cons] at h1 h2
          exact ih m rest (by omega) (by omega)

theorem tagScan_of_tryTag {s r cnt after : Str} (h : tryTag s = some (r, cnt, after)) :
    tagScan s = (r, cnt) :: tagScan after := by
  have hlt := tryTag_shrink h
  unfold tagScan
  rw [show s.length = (s.length - 1) + 1 by omega]
  simp only [tagScanF, h]
  congr 1
  exact tagScanF_congr _ _ _ (by omega) (le_refl _)

theorem tagScan_cons_of_none {c : Char} {rest : Str} (h : tryTag (c :: rest) = none) :
    tagScan (c :: rest) = tagScan rest := by
  unfold tagScan
  simp only [List.length_cons, tagScanF, h]

theorem tagScan_append_no_open {l rest : Str} (h : ∀ c ∈ l, c ≠ '<') :
    tagScan (l ++ rest) = tagScan rest := by
  induction l with
  | nil => rfl
  | cons c t ih =>
    rw [List.cons_append, tagScan_cons_of_none (tryTag_not_open (h c (by simp)))]
    exact ih fun d hd => h d (by simp [hd])

/-! ## Placeholder scanner lemmas -/

theorem phScanF_nil : ∀ f prev, phScanF f prev [] = [] := by
  intro f prev
  cases f with
  | zero => rfl
  | succ n => rfl

theorem phScanF_congr :
    ∀ f1 f2 prev s, s.length ≤ f1 → s.length ≤ f2 →
      phScanF f1 prev s = phScanF f2 prev s := by
  intro f1
  induction f1 with
  | zero =>
    intro f2 prev s h1 h2
    have hs : s = [] := by cases s with | nil => rfl | cons a b => simp at h1
    subst hs
    rw [phScanF_nil, phScanF_nil]
  | succ k ih =>
    intro f2 prev s h1 h2
    cases s with
    | nil => rw [phScanF_nil, phScanF_nil]
    | cons c rest =>
      cases f2 with
      | zero => simp at h2
      | succ m =>
        simp only [phScanF]
        simp only [List.length_cons] at h1 h2
        have hdl : (List.drop (List.length (List.takeWhile phChar rest)) rest).length
            ≤ rest.length := by
          simp [List.length_drop]
        split
        · split
          · congr 1
            exact ih m _ _ (by simp [List.length_drop]; omega)
              (by simp [List.length_drop]; omega)
          · exact ih m _ _ (by omega) (by omega)
        · exact ih m _ _ (by omega) (by omega)

theorem phRun_nil (prev : Option Char) : phRun prev [] = [] := rfl

theorem phRun_skip {prev : Option Char} {c : Char} {rest : Str}
    (h : ((c == obrace) && !(prev == some obrace)) = false) :
    phRun prev (c :: rest) = phRun (some c) rest := by
  unfold phRun
  simp only [List.length_cons, phScanF, h]
  simp

theorem phRun_fail {prev : Option Char} {c : Char} {rest : Str}
    (h : ((c == obrace) && !(prev == some obrace)) = true)
    (h2 : ((!(rest.takeWhile phChar).isEmpty) &&
        ((rest.drop (rest.takeWhile phChar).length).head? == some cbrace) &&
        !(((rest.drop (rest.takeWhile phChar).length).drop 1).head? == some cbrace))
        = false) :
    phRun prev (c :: rest) = phRun (some c) rest := by
  unfold phRun
  simp only [List.length_cons, phScanF, h]
  simp only [h2]
  simp

theorem phRun_hit {prev : Option Char} {c : Char} {rest : Str}
    (h : ((c == obrace) && !(prev == some obrace)) = true)
    (h2 : ((!(rest.takeWhile phChar).isEmpty) &&
        ((rest.drop (rest.takeWhile phChar).length).head? == some cbrace) &&
        !(((rest.drop (rest.takeWhile phChar).length).drop 1).head? == some cbrace))
        = true) :
    phRun prev (c :: rest) =
      rest.takeWhile phChar ::
        phRun (some cbrace) ((rest.drop (rest.takeWhile phChar).length).drop 1) := by
  unfold phRun
  simp only [List.length_cons, phScanF, h]
  simp only [h2]
  simp only [if_true]
  congr 1
  apply phScanF_congr
  · simp only [List.length_drop]
    omega
  · exact le_refl _

/-! ## Replace lemmas -/

theorem pyReplace_nil (pat val : Str) : pyReplace pat val [] = [] := rfl

theorem pyReplace_miss {pat : Str} (val : Str) {c : Char} {rest : Str}
    (h : lpre pat (c :: rest) = false) :
    pyReplace pat val (c :: rest) = c :: pyReplace pat val rest := by
  unfold pyReplace
  simp only [List.length_cons, replaceAllF, h, Bool.and_false]
  simp

theorem replaceAllF_congr :
    ∀ f1 f2 pat val s, s.length ≤ f1 → s.length ≤ f2 →
      replaceAllF f1 pat val s = replaceAllF f2 pat val s := by
  intro f1
  induction f1 with
  | zero =>
    intro f2 pat val s h1 h2
    have hs : s = [] := by cases s with | nil => rfl | cons a b => simp at h1
    subst hs
    cases f2 with
    | zero => rfl
    | succ m =>
      simp only [replaceAllF]
      cases pat with
      | nil => simp [lpre]
      | cons p t => simp [lpre]
  | succ k ih =>
    intro f2 pat val s h1 h2
    cases f2 with
    | zero =>
      have hs : s = [] := by cases s with | nil => rfl | cons a b => simp at h2
      subst hs
      simp only [replaceAllF]
      cases pat with
      | nil => simp [lpre]
      | cons p t => simp [lpre]
    | succ m =>
      simp only [replaceAllF]
      split
      · rename_i hcond
        congr 1
        have hplen : 1 ≤ pat.length := by
          cases pat with
          | nil => simp at hcond
          | cons p t => simp
        apply ih
        · simp [List.length_drop]; omega
        · simp [List.length_drop]; omega
      · cases s with
        | nil => rfl
        | cons c rest =>
          simp only [List.length_cons] at h1 h2
          show c :: replaceAllF k pat val rest = c :: replaceAllF m pat val rest
          rw [ih m pat val rest (by omega) (by omega)]

theorem pyReplace_hit {pat : Str} (val : Str) (h : pat ≠ []) (b : Str) :
    pyReplace pat val (pat ++ b) = val ++ pyReplace pat val b := by
  unfold pyReplace
  have hplen : 1 ≤ pat.length := by
    cases pat with
    | nil => exact absurd rfl h
    | cons p t => simp
  rw [show (pat ++ b).length = (pat.length + b.length - 1) + 1 by simp; omega]
  simp only [replaceAllF]
  have hc : ((!pat.isEmpty) && lpre pat (pat ++ b)) = true := by
    simp [lpre_append, List.isEmpty_iff, h]
  rw [hc]
  simp only [if_true, List.drop_left]
  congr 1
  apply replaceAllF_congr
  · omega
  · exact le_refl _

/-! ## CDATA pass lemmas -/

theorem cdataAux_of_no_open {s : Str} (n : Nat)
    (h : splitOnFirst cdOpen s = none) : cdataAux n s = (s, []) := by
  unfold cdataAux
  cases hl : s.length with
  | zero => rfl
  | succ m => simp only [cdataAuxF, h]

theorem cdataAuxF_congr :
    ∀ f1 f2 n s, s.length ≤ f1 → s.length ≤ f2 →
      cdataAuxF f1 n s = cdataAuxF f2 n s := by
  intro f1
  induction f1 with
  | zero =>
    intro f2 n s h1 h2
    have hs : s = [] := by cases s with | nil => rfl | cons a b => simp at h1
    subst hs
    cases f2 with
    | zero => rfl
    | succ m => rfl
  | succ k ih =>
    intro f2 n s h1 h2
    cases f2 with
    | zero =>
      have hs : s = [] := by cases s with | nil => rfl | cons a b => simp at h2
      subst hs
      rfl
    | succ m =>
      simp only [cdataAuxF]
      cases h1' : splitOnFirst cdOpen s with
      | none => simp
      | some p =>
        obtain ⟨pre, r1⟩ := p
        simp only
        cases h2' : splitOnFirst cdClose r1 with
        | none => simp
        | some q =>
          obtain ⟨cap, r2⟩ := q
          simp only
          have hd1 := sof_sound h1'
          have hd2 := sof_sound h2'
          have hlen : r2.length + 12 ≤ s.length := by
            rw [hd1, hd2]
            simp [cdOpen, cdClose, chars]
            omega
          rw [ih m (n + 1) r2 (by omega) (by omega)]

theorem cdataAux_hit {s pre r1 cap r2 : Str} (n : Nat)
    (h1 : splitOnFirst cdOpen s = some (pre, r1))
    (h2 : splitOnFirst cdClose r1 = some (cap, r2)) :
    cdataAux n s =
      (pre ++ cdphText n ++ (cdataAux (n + 1) r2).1,
        cap :: (cdataAux (n + 1) r2).2) := by
  unfold cdataAux
  have hd1 := sof_sound h1
  have hd2 := sof_sound h2
  have hlen : r2.length + 12 ≤ s.length := by
    rw [hd1, hd2]
    simp [cdOpen, cdClose, chars]
    omega
  rw [show s.length = (s.length - 1) + 1 by omega]
  simp only [cdataAuxF, h1, h2]
  have hcong : cdataAuxF (s.length - 1) (n + 1) r2 = cdataAuxF r2.length (n + 1) r2 :=
    cdataAuxF_congr _ _ _ _ (by omega) (le_refl _)
  rw [hcong]

/-! ## Placeholder-scan segment lemmas -/

theorem takeWhile_append_all {p : Char → Bool} {a : Str} (b : Str)
    (h : ∀ c ∈ a, p c = true) :
    (a ++ b).takeWhile p = a ++ b.takeWhile p := by
  induction a with
  | nil => rfl
  | cons c t ih =>
    rw [List.cons_append, List.takeWhile_cons_of_pos (h c (by simp)),
      ih fun d hd => h d (by simp [hd])]
    rfl

theorem prevAfter_ne {l : Str} {prev : Option Char}
    (hl : ∀ c ∈ l, c ≠ obrace) (hp : prev ≠ some obrace) :
    prevAfter l prev ≠ some obrace := by
  induction l generalizing prev with
  | nil => exact hp
  | cons c t ih =>
    exact ih (fun d hd => hl d (by simp [hd]))
      (by simp [hl c (by simp)])

theorem phRun_skip_seg {l : Str} (hl : ∀ c ∈ l, c ≠ obrace) :
    ∀ prev rest, phRun prev (l ++ rest) = phRun (prevAfter l prev) rest := by
  induction l with
  | nil => intro prev rest; rfl
  | cons c t ih =>
    intro prev rest
    rw [List.cons_append, phRun_skip (by simp [hl c (by simp)])]
    exact ih (fun d hd => hl d (by simp [hd])) (some c) rest

theorem phRun_end {l : Str} (prev : Option Char) (hl : ∀ c ∈ l, c ≠ obrace) :
    phRun prev l = [] := by
  have := phRun_skip_seg hl prev []
  rw [List.append_nil] at this
  rw [this]
  rfl

theorem phRun_at_ph {name B : Str} {prev : Option Char}
    (hprev : prev ≠ some obrace) (hname : name ≠ [])
    (hnc : ∀ c ∈ name, phChar c = true) (hB : B.head? ≠ some cbrace) :
    phRun prev (obrace :: name ++ cbrace :: B) = name :: phRun (some cbrace) B := by
  have hrun : (name ++ cbrace :: B).takeWhile phChar = name := by
    rw [takeWhile_append_all _ hnc, List.takeWhile_cons_of_neg (by decide),
      List.append_nil]
  have hdrop : (name ++ cbrace :: B).drop name.length = cbrace :: B :=
    List.drop_left _ _
  rw [List.cons_append, phRun_hit (by simp [hprev]) ?hcond]
  case hcond =>
    rw [hrun, hdrop]
    simp only [List.isEmpty_iff, List.head?_cons, List.drop_one, List.tail_cons]
    simp [hname, hB]
  rw [hrun, hdrop]
  simp

theorem phFind_dbl {lit : Str} (hl : ∀ c ∈ lit, phChar c = true ∧ c ≠ obrace) :
    phFind (obrace :: obrace :: lit ++ [cbrace, cbrace]) = [] := by
  show phRun none (obrace :: obrace :: lit ++ [cbrace, cbrace]) = []
  have hrun : (obrace :: lit ++ [cbrace, cbrace]).takeWhile phChar
      = obrace :: lit := by
    rw [List.cons_append, List.takeWhile_cons_of_pos (by decide),
      takeWhile_append_all _ fun c hc => (hl c hc).1,
      (by decide : List.takeWhile phChar [cbrace, cbrace] = ([] : Str)),
      List.append_nil]
  have hdrop : (obrace :: lit ++ [cbrace, cbrace]).drop (obrace :: lit).length
      = [cbrace, cbrace] := List.drop_left _ _
  rw [List.cons_append, phRun_fail (by simp) ?hfail]
  case hfail =>
    rw [hrun, hdrop]
    simp
  rw [List.cons_append, phRun_skip (by simp)]
  refine phRun_end _ fun c hc => ?_
  rcases List.mem_append.mp hc with h | h
  · exact (hl c h).2
  · simp only [List.mem_cons, List.not_mem_nil, or_false] at h
    rcases h with rfl | rfl <;> decide

theorem phFind_single {A name B : Str}
    (hA : ∀ c ∈ A, c ≠ obrace) (hname : name ≠ [])
    (hnc : ∀ c ∈ name, phChar c = true)
    (hB : ∀ c ∈ B, c ≠ obrace) (hBh : B.head? ≠ some cbrace) :
    phFind (A ++ (obrace :: name ++ cbrace :: B)) = [name] := by
  show phRun none (A ++ (obrace :: name ++ cbrace :: B)) = [name]
  rw [phRun_skip_seg hA,
    phRun_at_ph (prevAfter_ne hA (by simp)) hname hnc hBh,
    phRun_end _ hB]

theorem pyReplace_skip_seg {pt val : Str} {A : Str} (rest : Str)
    (hA : ∀ c ∈ A, c ≠ obrace) :
    pyReplace (obrace :: pt) val (A ++ rest) = A ++ pyReplace (obrace :: pt) val rest := by
  induction A with
  | nil => rfl
  | cons c t ih =>
    rw [List.cons_append,
      pyReplace_miss val (lpre_cons_false _ _ fun hh => (hA c (by simp)) hh.symm),
      ih fun d hd => hA d (by simp [hd])]
    rfl

theorem pyReplace_no_open {pt val : Str} {B : Str} (hB : ∀ c ∈ B, c ≠ obrace) :
    pyReplace (obrace :: pt) val B = B := by
  induction B with
  | nil => rfl
  | cons c t ih =>
    rw [pyReplace_miss val (lpre_cons_false _ _ fun hh => (hB c (by simp)) hh.symm),
      ih fun d hd => hB d (by simp [hd])]

theorem formatContent_single {A name B val : Str} {kw : List (Str × Str)}
    (hA : ∀ c ∈ A, c ≠ obrace) (hname : name ≠ [])
    (hnc : ∀ c ∈ name, phChar c = true)
    (hB : ∀ c ∈ B, c ≠ obrace) (hBh : B.head? ≠ some cbrace)
    (hlk : List.lookup name kw = some val) :
    formatContent kw (A ++ (obrace :: name ++ cbrace :: B)) = A ++ val ++ B := by
  unfold formatContent
  rw [phFind_single hA hname hnc hB hBh]
  simp only [List.foldl_cons, List.foldl_nil, hlk]
  have hshape : (A ++ (obrace :: name ++ cbrace :: B) : Str)
      = A ++ (obrace :: (name ++ [cbrace]) ++ B) := by
    simp
  rw [hshape,
    (List.cons_append obrace name [cbrace] :
      (obrace :: name ++ [cbrace] : Str) = obrace :: (name ++ [cbrace])),
    pyReplace_skip_seg (obrace :: (name ++ [cbrace]) ++ B) hA,
    pyReplace_hit val (by simp) B, pyReplace_no_open hB]
  simp

theorem formatContent_of_phFind_nil {kw : List (Str × Str)} {c : Str}
    (h : phFind c = []) : formatContent kw c = c := by
  unfold formatContent
  rw [h]
  rfl

theorem formatContent_empty (c : Str) : formatContent [] c = c := by
  unfold formatContent
  generalize phFind c = l
  induction l generalizing c with
  | nil => rfl
  | cons p t ih =>
    simp only [List.foldl_cons, List.lookup_nil]
    exact ih c

/-- Claim C7: formatting with an empty replacement mapping returns a document
equal in content to the original — same model, same metadata, and the same
messages with every placeholder preserved verbatim; the call is total. -/
theorem c7_format_empty_identity (p : Prompt) : Prompt.format p [] = p := by
  unfold Prompt.format
  have hm : (fun (m : Message) => { m with content := formatContent [] m.content })
      = fun (m : Message) => m := by
    funext m
    rw [formatContent_empty]
  rw [hm]
  simp

/-- Claim C3, counterexample: with content `{a} {{a}}` and mapping `a ↦ X`,
the `str.replace` call rewrites the inner `{a}` of the doubled token as well,
producing `X {X}` instead of leaving `{{a}}` alone. -/
theorem c3_counterexample :
    (Prompt.format
        ⟨none, [⟨chars ("user"), chars ("\x7ba\x7d \x7b\x7ba\x7d\x7d")⟩], []⟩
        [(chars ("a"), chars ("X"))]).messages
      = [⟨chars ("user"), chars ("X \x7bX\x7d")⟩] ∧
    (Prompt.format
        ⟨none, [⟨chars ("user"), chars ("\x7ba\x7d \x7b\x7ba\x7d\x7d")⟩], []⟩
        [(chars ("a"), chars ("X"))]).messages
      ≠ [⟨chars ("user"), chars ("X \x7b\x7ba\x7d\x7d")⟩] := by
  constructor
  · decide
  · decide

/-- Claim C3 as amended: a double-braced token is never detected as a
placeholder — a content that is exactly `{{lit}}` (brace-free, space-free
`lit`) is unchanged by `format` under every mapping, even when `lit` is a
key; and a single-braced `{name}` in otherwise brace-free text is replaced
exactly once with the mapped (string-converted) value.  (When the same name
also occurs single-braced elsewhere in the content, the `str.replace` call
additionally rewrites the text inside the double braces — see the
counterexample.) -/
theorem c3_placeholder_boundary
    (m0 : Option Str) (md : List (Str × YVal)) (rr lit A name val B : Str)
    (kw kw' : List (Str × Str))
    (hlit : ∀ c ∈ lit, phChar c = true ∧ c ≠ obrace)
    (hA : ∀ c ∈ A, c ≠ obrace ∧ c ≠ cbrace)
    (hB : ∀ c ∈ B, c ≠ obrace ∧ c ≠ cbrace)
    (hname : name ≠ []) (hnc : ∀ c ∈ name, phChar c = true) :
    (Prompt.format ⟨m0, [⟨rr, obrace :: obrace :: lit ++ [cbrace, cbrace]⟩], md⟩
        kw).messages
      = [⟨rr, obrace :: obrace :: lit ++ [cbrace, cbrace]⟩] ∧
    (Prompt.format ⟨m0, [⟨rr, A ++ (obrace :: name ++ cbrace :: B)⟩], md⟩
        ((name, val) :: kw')).messages
      = [⟨rr, A ++ val ++ B⟩] := by
  constructor
  · show [(⟨rr, formatContent kw (obrace :: obrace :: lit ++ [cbrace, cbrace])⟩ : Message)] = _
    rw [formatContent_of_phFind_nil (phFind_dbl hlit)]
  · show [(⟨rr, formatContent ((name, val) :: kw') (A ++ (obrace :: name ++ cbrace :: B))⟩ : Message)] = _
    rw [formatContent_single (fun c hc => (hA c hc).1) hname hnc
      (fun c hc => (hB c hc).1)
      (fun hh => by
        cases hB' : B with
        | nil => rw [hB'] at hh; simp at hh
        | cons d t =>
          rw [hB'] at hh
          simp only [List.head?_cons, Option.some.injEq] at hh
          exact (hB d (by simp [hB'])).2 hh)
      (show List.lookup name ((name, val) :: kw') = some val by simp [List.lookup])]

/-- Claim C3 witness: the amended statement at a concrete input. -/
theorem c3_witness :
    (Prompt.format ⟨none, [⟨chars ("user"), chars ("pre \x7bname\x7d post")⟩], []⟩
        [(chars ("name"), chars ("V"))]).messages
      = [⟨chars ("user"), chars ("pre V post")⟩] := by
  have h := c3_placeholder_boundary none [] (chars ("user")) (chars ("lit"))
    (chars ("pre ")) (chars ("name")) (chars ("V")) (chars (" post")) [] []
    (by decide) (by decide) (by decide) (by decide) (by decide)
  exact h.2

/-- Claim C4, counterexample: with content `{a} {b}` and mapping
`a ↦ "{b}", b ↦ "Y"`, the text `{b}` introduced by substituting `a` is
rewritten by the later replace call for `b`, yielding `Y Y` instead of the
claimed `{b} Y`. -/
theorem c4_counterexample :
    (Prompt.format ⟨none, [⟨chars ("user"), chars ("\x7ba\x7d \x7bb\x7d")⟩], []⟩
        [(chars ("a"), chars ("\x7bb\x7d")), (chars ("b"), chars ("Y"))]).messages
      = [⟨chars ("user"), chars ("Y Y")⟩] ∧
    (Prompt.format ⟨none, [⟨chars ("user"), chars ("\x7ba\x7d \x7bb\x7d")⟩], []⟩
        [(chars ("a"), chars ("\x7bb\x7d")), (chars ("b"), chars ("Y"))]).messages
      ≠ [⟨chars ("user"), chars ("\x7bb\x7d Y")⟩] := by
  constructor
  · decide
  · decide

/-- Claim C4 as amended: substitution never rescans introduced text for new
placeholder detection; introduced text is only subject to the remaining
`str.replace` calls for placeholders found in the original content.  In
particular, when the content contains the single placeholder `{name}`, the
replacement value stays verbatim even when it is itself a brace-delimited
token `{other}` whose name is a key of the mapping.  (When `{other}` also
occurs in the original content and is processed later, the introduced text
is rewritten — see the counterexample.) -/
theorem c4_no_rescan
    (m0 : Option Str) (md : List (Str × YVal)) (rr A name other w B : Str)
    (kw' : List (Str × Str))
    (hA : ∀ c ∈ A, c ≠ obrace ∧ c ≠ cbrace)
    (hB : ∀ c ∈ B, c ≠ obrace ∧ c ≠ cbrace)
    (hname : name ≠ []) (hnc : ∀ c ∈ name, phChar c = true) :
    (Prompt.format ⟨m0, [⟨rr, A ++ (obrace :: name ++ cbrace :: B)⟩], md⟩
        ((name, obrace :: other ++ [cbrace]) :: (other, w) :: kw')).messages
      = [⟨rr, A ++ (obrace :: other ++ [cbrace]) ++ B⟩] := by
  show [(⟨rr, formatContent ((name, obrace :: other ++ [cbrace]) :: (other, w) :: kw')
      (A ++ (obrace :: name ++ cbrace :: B))⟩ : Message)] = _
  rw [formatContent_single (fun c hc => (hA c hc).1) hname hnc
    (fun c hc => (hB c hc).1)
    (fun hh => by
      cases hB' : B with
      | nil => rw [hB'] at hh; simp at hh
      | cons d t =>
        rw [hB'] at hh
        simp only [List.head?_cons, Option.some.injEq] at hh
        exact (hB d (by simp [hB'])).2 hh)
    (show List.lookup name ((name, obrace :: other ++ [cbrace]) :: (other, w) :: kw')
      = some (obrace :: other ++ [cbrace]) by simp [List.lookup])]

/-- Claim C4 witness: the amended statement at a concrete input — the
substituted value `{other}` survives verbatim although `other` is a key. -/
theorem c4_witness :
    (Prompt.format ⟨none, [⟨chars ("user"), chars ("x \x7ba\x7d y")⟩], []⟩
        [(chars ("a"), chars ("\x7bz\x7d")), (chars ("z"), chars ("W"))]).messages
      = [⟨chars ("user"), chars ("x \x7bz\x7d y")⟩] := by
  have h := c4_no_rescan none [] (chars ("user")) (chars ("x "))
    (chars ("a")) (chars ("z")) (chars ("W")) (chars (" y")) []
    (by decide) (by decide) (by decide) (by decide)
  exact h

/-! ## Heap-level frame lemmas for format -/

theorem foldl_set_frame (kw : List (Str × Str)) :
    ∀ (L : List Nat) (st : List Message) (r : Nat), (∀ x ∈ L, x ≠ r) →
      (L.foldl
        (fun st x =>
          match st.get? x with
          | some m => st.set x (fmtOne kw m)
          | none => st)
        st).get? r = st.get? r := by
  intro L
  induction L with
  | nil => intro st r _; rfl
  | cons x t ih =>
    intro st r hL
    rw [List.foldl_cons]
    rw [ih _ r fun y hy => hL y (by simp [hy])]
    cases hx : st.get? x with
    | none => rfl
    | some m =>
      simp only
      rw [List.get?_eq_getElem?, List.get?_eq_getElem?]
      exact List.getElem?_set_ne (hL x (by simp))

/-- Claim C6: `format` returns a new document and leaves the original
untouched.  At the heap level (message dicts live in a store, the document
holds references) every cell reachable from the original document is
unchanged by the call and the returned document references only freshly
allocated cells; at the value level `format` rebinds only the `messages`
field, leaving `model` and `metadata` as they were. -/
theorem c6_format_frame (store : List Message) (refs : List Nat)
    (kw : List (Str × Str)) (hwf : ∀ r ∈ refs, r < store.length) :
    (∀ r ∈ refs, (formatHeap store refs kw).1.get? r = store.get? r) ∧
    (∀ x ∈ (formatHeap store refs kw).2, store.length ≤ x) ∧
    (∀ p : Prompt, (Prompt.format p kw).model = p.model ∧
      (Prompt.format p kw).metadata = p.metadata) := by
  have hfresh : ∀ x ∈ (List.range refs.length).map (· + store.length),
      store.length ≤ x := by
    intro x hx
    simp only [List.mem_map, List.mem_range] at hx
    obtain ⟨y, -, rfl⟩ := hx
    omega
  refine ⟨?_, ?_, fun p => ⟨rfl, rfl⟩⟩
  · intro r hr
    show (((List.range refs.length).map (· + store.length)).foldl _
        (store ++ refs.map fun r => (store.get? r).getD ⟨[], []⟩)).get? r
      = store.get? r
    rw [foldl_set_frame kw _ _ r fun x hx => by
      have := hfresh x hx
      have := hwf r hr
      omega]
    rw [List.get?_eq_getElem?, List.get?_eq_getElem?]
    exact List.getElem?_append_left (hwf r hr)
  · exact hfresh

/-- Claim C6 witness: a store with one message holding a placeholder; after
the call the original cell still holds the placeholder text. -/
theorem c6_witness :
    (formatHeap [⟨chars ("user"), chars ("\x7ba\x7d")⟩] [0]
        [(chars ("a"), chars ("X"))]).1.get? 0
      = some ⟨chars ("user"), chars ("\x7ba\x7d")⟩ := by
  have h := c6_format_frame [⟨chars ("user"), chars ("\x7ba\x7d")⟩] [0]
    [(chars ("a"), chars ("X"))] (by decide)
  exact h.1 0 (by decide)

/-! ## Extraction invariants (C10) -/

theorem optMapM_some_mem {α β : Type} (f : α → Option β) :
    ∀ (l : List α) (out : List β), optMapM f l = some out →
      ∀ y ∈ out, ∃ x ∈ l, f x = some y := by
  intro l
  induction l with
  | nil =>
    intro out h y hy
    simp only [optMapM, Option.some.injEq] at h
    subst h
    simp at hy
  | cons a t ih =>
    intro out h y hy
    simp only [optMapM] at h
    cases hfa : f a with
    | none => rw [hfa] at h; simp at h
    | some b =>
      rw [hfa] at h
      cases hmt : optMapM f t with
      | none => rw [hmt] at h; simp at h
      | some bs =>
        rw [hmt] at h
        simp only [Option.some.injEq] at h
        subst h
        rcases List.mem_cons.mp hy with rfl | hy'
        · exact ⟨a, by simp, hfa⟩
        · obtain ⟨x, hx, hfx⟩ := ih bs hmt y hy'
          exact ⟨x, by simp [hx], hfx⟩

theorem tagScanF_role :
    ∀ (fuel : Nat) (s : Str) (x : Str × Str), x ∈ tagScanF fuel s →
      x.1 = chars ("system") ∨ x.1 = chars ("user") ∨ x.1 = chars ("assistant") := by
  intro fuel
  induction fuel with
  | zero => intro s x hx; simp [tagScanF] at hx
  | succ k ih =>
    intro s x hx
    simp only [tagScanF] at hx
    cases htt : tryTag s with
    | some v =>
      obtain ⟨r, cnt, after⟩ := v
      rw [htt] at hx
      simp only [List.mem_cons] at hx
      rcases hx with rfl | hx'
      · exact (tryTag_sound htt).1
      · exact ih after x hx'
    | none =>
      rw [htt] at hx
      cases s with
      | nil => simp at hx
      | cons c rest => exact ih rest x hx

/-- Claim C10: whenever `_extract_messages` returns (does not crash), every
returned message has one of the three recognized roles and content equal to
its own whitespace-trim, no matter how the body was laid out or
CDATA-escaped. -/
theorem c10_extract_invariants (body : Str) (msgs : List Message)
    (h : extractMessages body = some msgs) :
    ∀ m ∈ msgs,
      (m.role = chars ("system") ∨ m.role = chars ("user")
        ∨ m.role = chars ("assistant")) ∧ pyStrip m.content = m.content := by
  intro m hm
  simp only [extractMessages] at h
  obtain ⟨rc, hrc, hf⟩ := optMapM_some_mem _ _ _ h m hm
  simp only [Option.map_eq_some'] at hf
  obtain ⟨restored, -, hm'⟩ := hf
  subst hm'
  exact ⟨tagScanF_role _ _ _ hrc, pyStrip_idem restored⟩

/-- Claim C10 witness: the invariants at a concrete body. -/
theorem c10_witness :
    (chars ("user") = chars ("system") ∨ chars ("user") = chars ("user")
      ∨ chars ("user") = chars ("assistant")) ∧
    pyStrip (chars ("hi")) = chars ("hi") := by
  have h := c10_extract_invariants (chars ("<user>hi</user>"))
    [⟨chars ("user"), chars ("hi")⟩] (by decide)
  exact h ⟨chars ("user"), chars ("hi")⟩ (by decide)

/-! ## Order preservation (C8) -/

theorem tagScanPosF_ge :
    ∀ (fuel i : Nat) (s : Str) (x : Nat × Str × Str),
      x ∈ tagScanPosF fuel i s → i ≤ x.1 := by
  intro fuel
  induction fuel with
  | zero => intro i s x hx; simp [tagScanPosF] at hx
  | succ k ih =>
    intro i s x hx
    simp only [tagScanPosF] at hx
    cases htt : tryTag s with
    | some v =>
      obtain ⟨r, cnt, after⟩ := v
      rw [htt] at hx
      simp only [List.mem_cons] at hx
      rcases hx with rfl | hx'
      · exact le_refl _
      · have := ih _ _ _ hx'
        omega
    | none =>
      rw [htt] at hx
      cases s with
      | nil => simp at hx
      | cons c rest =>
        have := ih _ _ _ hx
        omega

theorem tagScanPosF_sorted :
    ∀ (fuel i : Nat) (s : Str),
      (tagScanPosF fuel i s).Pairwise (fun a b => a.1 < b.1) := by
  intro fuel
  induction fuel with
  | zero => intro i s; simp [tagScanPosF]
  | succ k ih =>
    intro i s
    simp only [tagScanPosF]
    cases htt : tryTag s with
    | some v =>
      obtain ⟨r, cnt, after⟩ := v
      simp only
      refine List.Pairwise.cons ?_ (ih _ after)
      intro b hb
      have hge := tagScanPosF_ge _ _ _ _ hb
      have hsh := tryTag_shrink htt
      simp only
      omega
    | none =>
      cases s with
      | nil => simp
      | cons c rest => exact ih _ rest

theorem tagScanPosF_proj :
    ∀ (fuel i : Nat) (s : Str),
      (tagScanPosF fuel i s).map (fun x => (x.2.1, x.2.2)) = tagScanF fuel s := by
  intro fuel
  induction fuel with
  | zero => intro i s; rfl
  | succ k ih =>
    intro i s
    simp only [tagScanPosF, tagScanF]
    cases htt : tryTag s with
    | some v =>
      obtain ⟨r, cnt, after⟩ := v
      simp only [List.map_cons]
      rw [ih]
    | none =>
      cases s with
      | nil => rfl
      | cons c rest => exact ih _ rest

/-- Claim C8: the extracted messages come in document order — the match
positions of the tag scan are strictly increasing (and the position-annotated
scan projects onto the scan used by `_extract_messages`); in particular a
body with well-formed blocks in the order user, assistant, system, user
yields exactly those four messages in that order. -/
theorem c8_order_preservation :
    (∀ (fuel i : Nat) (s : Str),
      (tagScanPosF fuel i s).Pairwise (fun a b => a.1 < b.1)) ∧
    (∀ (fuel i : Nat) (s : Str),
      (tagScanPosF fuel i s).map (fun x => (x.2.1, x.2.2)) = tagScanF fuel s) ∧
    extractMessages
        (chars ("<user>\nA\n</user>\n<assistant>\nB\n</assistant>\n<system>\nC\n</system>\n<user>\nD\n</user>"))
      = some [⟨chars ("user"), chars ("A")⟩, ⟨chars ("assistant"), chars ("B")⟩,
          ⟨chars ("system"), chars ("C")⟩, ⟨chars ("user"), chars ("D")⟩] := by
  refine ⟨tagScanPosF_sorted, tagScanPosF_proj, ?_⟩
  decide

/-! ## CDATA fidelity (C5) -/

theorem lpre_append_indep {pat a : Str} (h : pat.length ≤ a.length) (X : Str) :
    lpre pat (a ++ X) = lpre pat a := by
  induction pat generalizing a with
  | nil => rfl
  | cons p pt ih =>
    cases a with
    | nil => simp at h
    | cons b a' =>
      simp only [List.length_cons] at h
      rw [List.cons_append]
      simp only [lpre]
      rw [ih (by omega)]

theorem sof_skip_concrete {pat : Str} {pre : Str} (X : Str)
    (h : ∀ i, i < pre.length → lpre pat (pre.drop i ++ X) = false) :
    splitOnFirst pat (pre ++ X) =
      (splitOnFirst pat X).map fun p => (pre ++ p.1, p.2) := by
  induction pre with
  | nil =>
    cases hx : splitOnFirst pat X with
    | none => simp [hx]
    | some p => simp [hx]
  | cons c t ih =>
    rw [List.cons_append, sof_none_cons (by simpa using h 0 (by simp))]
    rw [ih fun i hi => by simpa using h (i + 1) (by simp; omega)]
    cases hx : splitOnFirst pat X with
    | none => simp [hx]
    | some p => simp [hx]

theorem pyStrip_pad (s : Str) : pyStrip (nl :: s ++ [nl]) = pyStrip s := by
  have h1 : (nl :: s ++ [nl] : Str) = nl :: (s ++ [nl]) := List.cons_append _ _ _
  rw [h1, pyStrip_cons_space _ (by decide), pyStrip_append_space _ (by decide)]

theorem restore_one_section (payload : Str) :
    restoreScan [payload] (nl :: chars ("CDATA_PLACEHOLDER_0") ++ [nl])
      = some (nl :: payload ++ [nl]) := rfl

/-- Claim C5: a CDATA-escaped payload — even one containing tag-like text
such as a literal `<user>` — is never interpreted as a message-tag boundary:
the whole escaped span becomes one placeholder before tag matching, and the
payload is restored verbatim into the single extracted message, subject only
to the trim of the whole content.  The hypothesis states that the first
`]]>` after the wrapper's opener is the wrapper's own terminator. -/
theorem c5_cdata_fidelity (payload : Str)
    (hp : splitOnFirst cdClose (payload ++ chars ("]]>\n</user>"))
        = some (payload, chars ("\n</user>"))) :
    extractMessages
        (chars ("<user>\n<![CDATA[") ++ payload ++ chars ("]]>\n</user>"))
      = some [⟨chars ("user"), pyStrip payload⟩] := by
  have hbody : chars ("<user>\n<![CDATA[") ++ payload ++ chars ("]]>\n</user>")
      = chars ("<user>\n") ++ (cdOpen ++ (payload ++ chars ("]]>\n</user>"))) := by
    rw [(by decide : chars ("<user>\n<![CDATA[") = chars ("<user>\n") ++ cdOpen)]
    simp [List.append_assoc]
  rw [hbody]
  have h1 : splitOnFirst cdOpen
      (chars ("<user>\n") ++ (cdOpen ++ (payload ++ chars ("]]>\n</user>"))))
      = some (chars ("<user>\n"), payload ++ chars ("]]>\n</user>")) := by
    rw [sof_skip_concrete (cdOpen ++ (payload ++ chars ("]]>\n</user>"))) ?hskip,
      sof_hit (by decide) (payload ++ chars ("]]>\n</user>"))]
    · simp
    case hskip =>
      intro i hi
      have hi' : i < 7 := by simpa [chars] using hi
      rw [← List.append_assoc, lpre_append_indep ?hlen (payload ++ chars ("]]>\n</user>"))]
      · interval_cases i <;> decide
      case hlen => interval_cases i <;> decide
  have hcd : cdataAux 0
      (chars ("<user>\n") ++ (cdOpen ++ (payload ++ chars ("]]>\n</user>"))))
      = (chars ("<user>\nCDATA_PLACEHOLDER_0\n</user>"), [payload]) := by
    rw [cdataAux_hit 0 h1 hp,
      (by decide : cdataAux 1 (chars ("\n</user>")) = (chars ("\n</user>"), []))]
    simp only [Prod.mk.injEq]
    exact ⟨by decide, trivial⟩
  simp only [extractMessages, hcd]
  rw [(by decide : tagScan (chars ("<user>\nCDATA_PLACEHOLDER_0\n</user>"))
      = [(chars ("user"), chars ("\nCDATA_PLACEHOLDER_0\n"))])]
  simp only [optMapM,
    (by decide : chars ("\nCDATA_PLACEHOLDER_0\n")
      = nl :: chars ("CDATA_PLACEHOLDER_0") ++ [nl]),
    restore_one_section, Option.map_some', pyStrip_pad]

/-- Claim C5 witness: a payload containing a literal `<user>` substring. -/
theorem c5_witness :
    extractMessages
        (chars ("<user>\n<![CDATA[") ++ chars ("a <user> b")
          ++ chars ("]]>\n</user>"))
      = some [⟨chars ("user"), pyStrip (chars ("a <user> b"))⟩] :=
  c5_cdata_fidelity (chars ("a <user> b")) (by decide)

/-! ## Front-matter shape (C2) -/

theorem hs_sound {s h b : Str} (hhs : headerSearch s = some (h, b)) :
    s = h ++ chars ("---\n") ++ b ∧ h ≠ [] ∧ h.getLast? = some nl := by
  induction s generalizing h with
  | nil => simp [headerSearch] at hhs
  | cons c rest ih =>
    simp only [headerSearch] at hhs
    split at hhs
    · rename_i hcond
      obtain ⟨rfl, hlp⟩ := hcond
      simp only [Option.some.injEq, Prod.mk.injEq] at hhs
      obtain ⟨rfl, rfl⟩ := hhs
      refine ⟨?_, by simp, by simp⟩
      conv_lhs => rw [lpre_eq_append hlp]
      rw [(by decide : (chars ("---\n")).length = 4)]
      simp
    · simp only [Option.map_eq_some'] at hhs
      obtain ⟨⟨h', b'⟩, hh, heq⟩ := hhs
      simp only [Prod.mk.injEq] at heq
      obtain ⟨rfl, rfl⟩ := heq
      obtain ⟨hdec, hne, hlast⟩ := ih hh
      refine ⟨by rw [hdec]; simp, by simp, ?_⟩
      cases h' with
      | nil => exact absurd rfl hne
      | cons x xs =>
        rw [List.getLast?_cons_cons]
        exact hlast

theorem hs_complete :
    ∀ (h : Str), h ≠ [] → h.getLast? = some nl →
      ∀ b, headerSearch (h ++ chars ("---\n") ++ b) ≠ none := by
  intro h
  induction h with
  | nil => intro hne; exact absurd rfl hne
  | cons c t ih =>
    intro hne hlast b
    cases t with
    | nil =>
      simp only [List.getLast?_singleton, Option.some.injEq] at hlast
      subst hlast
      show headerSearch (nl :: ([] ++ chars ("---\n") ++ b)) ≠ none
      simp [headerSearch, lpre_append]
    | cons d ts =>
      show headerSearch (c :: ((d :: ts) ++ chars ("---\n") ++ b)) ≠ none
      simp only [headerSearch]
      split
      · simp
      · have := ih (by simp) (by rw [List.getLast?_cons_cons] at hlast; exact hlast) b
        intro hcon
        simp only [Option.map_eq_none'] at hcon
        exact this hcon

theorem dropWhile_all_append {p : Char → Bool} {ws : Str} (rest : Str)
    (hws : ∀ c ∈ ws, p c = true) :
    (ws ++ rest).dropWhile p = rest.dropWhile p := by
  induction ws with
  | nil => rfl
  | cons c t ih =>
    rw [List.cons_append, List.dropWhile_cons_of_pos (hws c (by simp))]
    exact ih fun d hd => hws d (by simp [hd])

theorem shapeSplit_sound {content h b : Str}
    (hss : shapeSplit content = some (h, b)) :
    content = content.takeWhile isPySpace ++ chars ("---\n") ++ h
        ++ chars ("---\n") ++ b ∧
      (∀ c ∈ content.takeWhile isPySpace, isPySpace c = true) ∧
      h ≠ [] ∧ h.getLast? = some nl := by
  simp only [shapeSplit] at hss
  split at hss
  · rename_i hlp
    obtain ⟨hdec, hne, hlast⟩ := hs_sound hss
    refine ⟨?_, fun c hc => List.mem_takeWhile_imp hc, hne, hlast⟩
    conv_lhs => rw [← List.takeWhile_append_dropWhile (p := isPySpace) (l := content)]
    rw [lpre_eq_append hlp]
    have h4 : (chars ("---\n")).length = 4 := by decide
    rw [← h4] at hdec
    rw [hdec]
    simp [List.append_assoc]
  · simp at hss

theorem shapeSplit_ne_none_iff (content : Str) :
    shapeSplit content ≠ none ↔ specShape content := by
  constructor
  · intro hne
    cases hss : shapeSplit content with
    | none => exact absurd hss hne
    | some p =>
      obtain ⟨h, b⟩ := p
      obtain ⟨hdec, hws, hne', hlast⟩ := shapeSplit_sound hss
      exact ⟨content.takeWhile isPySpace, h, b, hdec, hws, hne', hlast⟩
  · rintro ⟨ws, hdr, body, heq, hws, hne, hlast⟩
    unfold shapeSplit
    have hdw : content.dropWhile isPySpace
        = chars ("---\n") ++ (hdr ++ chars ("---\n") ++ body) := by
      rw [heq]
      have hre : ws ++ chars ("---\n") ++ hdr ++ chars ("---\n") ++ body
          = ws ++ (chars ("---\n") ++ (hdr ++ chars ("---\n") ++ body)) := by
        simp [List.append_assoc]
      rw [hre, dropWhile_all_append _ hws]
      rw [show (chars ("---\n") ++ (hdr ++ chars ("---\n") ++ body) : Str)
          = '-' :: (chars ("--\n") ++ (hdr ++ chars ("---\n") ++ body)) from rfl]
      rw [List.dropWhile_cons_of_neg (by decide)]
    rw [hdw]
    have hlp : lpre (chars ("---\n"))
        (chars ("---\n") ++ (hdr ++ chars ("---\n") ++ body)) = true :=
      lpre_append _ _
    rw [if_pos hlp]
    have h4 : (chars ("---\n")).length = 4 := by decide
    rw [← h4, List.drop_left]
    exact hs_complete hdr hne hlast body

theorem parseLines_ne_format :
    ∀ (ls : List Str) (acc : List (Str × YVal)),
      parseLines acc ls ≠ .error .format := by
  intro ls
  induction ls with
  | nil => intro acc h; simp [parseLines] at h
  | cons l t ih =>
    intro acc h
    simp only [parseLines] at h
    cases hpl : parseLine l with
    | none => rw [hpl] at h; simp at h
    | some kv =>
      obtain ⟨k, v⟩ := kv
      rw [hpl] at h
      exact ih (insertDict acc k v) h

theorem parseYaml_ne_format (h : Str) : parseYaml h ≠ .error .format := by
  simp only [parseYaml]
  split
  · simp
  · exact parseLines_ne_format _ _

theorem load_format_iff (content : Str) :
    Prompt.load content = .error .format ↔ shapeSplit content = none := by
  unfold Prompt.load
  cases hss : shapeSplit content with
  | none => simp
  | some p =>
    obtain ⟨hdr, body⟩ := p
    simp only
    constructor
    · intro h
      exfalso
      cases hpy : parseYaml hdr with
      | error e =>
        rw [hpy] at h
        simp only [Except.error.injEq] at h
        exact parseYaml_ne_format hdr (by rw [hpy, h])
      | ok cfg =>
        rw [hpy] at h
        cases hex : extractMessages body with
        | none => rw [hex] at h; simp at h
        | some msgs => rw [hex] at h; simp at h
    · intro h
      simp at h

/-- Claim C2: `Prompt.load` raises the invalid-format `ValueError` exactly
when the content does not have the shape "optional leading whitespace, a
line of three dashes, a header section ending at a line boundary, a second
line of three dashes, then the body"; and when the shape is present, the
split used is a genuine decomposition of the content into that header and
the remaining body. -/
theorem c2_format_error_iff (content : Str) :
    (Prompt.load content = .error .format ↔ ¬ specShape content) ∧
    (∀ hdr body, shapeSplit content = some (hdr, body) →
      content = content.takeWhile isPySpace ++ chars ("---\n") ++ hdr
          ++ chars ("---\n") ++ body ∧ hdr.getLast? = some nl) := by
  constructor
  · rw [load_format_iff]
    constructor
    · intro h hspec
      exact ((shapeSplit_ne_none_iff content).mpr hspec) h
    · intro h
      cases hss : shapeSplit content with
      | none => rfl
      | some p =>
        exact absurd ((shapeSplit_ne_none_iff content).mp (by rw [hss]; simp)) h
  · intro hdr body hss
    obtain ⟨hdec, -, -, hlast⟩ := shapeSplit_sound hss
    exact ⟨hdec, hlast⟩

/-- Claim C2 witness: a content with the required shape is not rejected with
the invalid-format error. -/
theorem c2_witness :
    ¬ (Prompt.load (chars ("---\na: b\n---\nbody")) = .error .format) := by
  intro h
  exact ((c2_format_error_iff (chars ("---\na: b\n---\nbody"))).1.mp h)
    ⟨[], chars ("a: b\n"), chars ("body"), by decide, by decide, by decide, by decide⟩

/-! ## Header dict and dump shape (C9) -/

theorem foldl_insertDict_head (meta : List (Str × YVal)) :
    ∀ (k0 : Str) (v0 : YVal) (t : List (Str × YVal)),
      ∃ v' t', meta.foldl (fun acc kv => insertDict acc kv.1 kv.2) ((k0, v0) :: t)
        = (k0, v') :: t' := by
  induction meta with
  | nil => intro k0 v0 t; exact ⟨v0, t, rfl⟩
  | cons kv rest ih =>
    intro k0 v0 t
    rw [List.foldl_cons]
    show ∃ v' t', rest.foldl _ (insertDict ((k0, v0) :: t) kv.1 kv.2) = _
    simp only [insertDict]
    split
    · exact ih k0 kv.2 t
    · exact ih k0 v0 (insertDict t kv.1 kv.2)

theorem insertDict_fresh {l : List (Str × YVal)} {k : Str} (v : YVal)
    (h : ∀ kv ∈ l, ¬(kv.1 == k) = true) : insertDict l k v = l ++ [(k, v)] := by
  induction l with
  | nil => rfl
  | cons kv' t ih =>
    obtain ⟨k', v'⟩ := kv'
    simp only [insertDict]
    rw [if_neg (by simpa using h (k', v') (by simp))]
    rw [ih fun kv hkv => h kv (by simp [hkv])]
    rfl

theorem foldl_insertDict_append :
    ∀ (meta acc : List (Str × YVal)), keysDistinctB meta = true →
      (∀ kv ∈ meta, ∀ kv' ∈ acc, ¬(kv'.1 == kv.1) = true) →
      meta.foldl (fun acc kv => insertDict acc kv.1 kv.2) acc = acc ++ meta := by
  intro meta
  induction meta with
  | nil => intro acc _ _; simp
  | cons kv rest ih =>
    intro acc hd hf
    obtain ⟨k, v⟩ := kv
    rw [List.foldl_cons]
    have hstep : insertDict acc k v = acc ++ [(k, v)] :=
      insertDict_fresh v fun kv' hkv' => hf (k, v) (by simp) kv' hkv'
    simp only at hstep
    rw [hstep]
    simp only [keysDistinctB, Bool.and_eq_true, Bool.not_eq_true'] at hd
    obtain ⟨hany, hd'⟩ := hd
    rw [ih (acc ++ [(k, v)]) hd' ?hfresh]
    · simp
    case hfresh =>
      intro kv2 hkv2 kv' hkv'
      rcases List.mem_append.mp hkv' with h1 | h1
      · exact hf kv2 (by simp [hkv2]) kv' h1
      · simp only [List.mem_singleton] at h1
        subst h1
        have hne := List.any_eq_false.mp hany kv2 hkv2
        simp only [Bool.not_eq_true]
        rw [beq_eq_false_iff_ne]
        intro hcon
        rw [← hcon] at hne
        simp at hne

theorem headerPairs_eq {p : Prompt} (hnd : keysDistinctB p.metadata = true)
    (hnm : ∀ kv ∈ p.metadata, ¬(kv.1 == chars ("model")) = true) :
    headerPairs p = (chars ("model"), modelVal p.model) :: p.metadata := by
  unfold headerPairs
  rw [foldl_insertDict_append p.metadata _ hnd ?hf]
  · simp
  case hf =>
    intro kv hkv kv' hkv'
    simp only [List.mem_singleton] at hkv'
    subst hkv'
    have hne := hnm kv hkv
    simp only [Bool.not_eq_true] at hne ⊢
    rw [beq_eq_false_iff_ne] at hne ⊢
    intro hcon
    exact hne hcon.symm

/-- Claim C9: `dump` always emits the `model` key as the first header entry —
even for an absent model, which is rendered as `model: null` — followed by
the metadata keys in stored insertion order (not alphabetized), and the
output has the shape `---\n<header>---\n<messages>\n` with each message
rendered `<role>\ncontent\n</role>`, joined by newlines in document order. -/
theorem c9_dump_shape (p : Prompt)
    (hnd : keysDistinctB p.metadata = true)
    (hnm : ∀ kv ∈ p.metadata, ¬(kv.1 == chars ("model")) = true) :
    (∃ v' t', headerPairs p = (chars ("model"), v') :: t') ∧
    (headerPairs p).map Prod.fst = chars ("model") :: p.metadata.map Prod.fst ∧
    (p.model = none →
      yamlDump (headerPairs p) = chars ("model: null\n") ++ yamlDump p.metadata) ∧
    Prompt.dump p = chars ("---\n") ++ yamlDump (headerPairs p) ++ chars ("---\n")
        ++ joinNL (p.messages.map renderBlock) ++ [nl] := by
  refine ⟨?_, ?_, ?_, rfl⟩
  · exact foldl_insertDict_head p.metadata _ _ []
  · rw [headerPairs_eq hnd hnm]
    simp
  · intro hmodel
    rw [headerPairs_eq hnd hnm, hmodel]
    simp only [yamlDump, List.map_cons, strConcat, modelVal, renderVal]
    rw [(by decide : (chars ("model") ++ chars (": ") ++ chars ("null") ++ [nl] : Str)
      = chars ("model: null\n"))]

/-- Claim C9 witness: the dump header of a model-less document starts with a
`model: null` line, followed by the metadata lines. -/
theorem c9_witness :
    yamlDump (headerPairs ⟨none, [], [(chars ("temp"), .vstr (chars ("high")))]⟩)
      = chars ("model: null\n")
        ++ yamlDump [(chars ("temp"), .vstr (chars ("high")))] := by
  have h := c9_dump_shape ⟨none, [], [(chars ("temp"), .vstr (chars ("high")))]⟩
    (by decide) (by decide)
  exact h.2.2.1 rfl

/-! ## Round trip (C1): header side -/

theorem hs_skip {l : Str} (rest : Str) (h : ∀ c ∈ l, c ≠ nl) :
    headerSearch (l ++ rest) = (headerSearch rest).map fun p => (l ++ p.1, p.2) := by
  induction l with
  | nil =>
    cases hx : headerSearch rest with
    | none => simp [hx]
    | some p => simp [hx]
  | cons c t ih =>
    rw [List.cons_append]
    simp only [headerSearch]
    rw [if_neg (by simp [h c (by simp)])]
    rw [ih fun d hd => h d (by simp [hd])]
    cases hx : headerSearch rest with
    | none => simp [hx]
    | some p => simp [hx]

theorem lpre_ne_second {p0 p1 c0 c1 : Char} (pt ct : Str) (h : p1 ≠ c1) :
    lpre (p0 :: p1 :: pt) (c0 :: c1 :: ct) = false := by
  simp [lpre, h]

theorem hs_lines :
    ∀ (ls : List Str) (B : Str), ls ≠ [] →
      (∀ l ∈ ls, l ≠ [] ∧ l.head? ≠ some '-' ∧ ∀ c ∈ l, c ≠ nl) →
      headerSearch (strConcat (ls.map (· ++ [nl])) ++ (chars ("---\n") ++ B))
        = some (strConcat (ls.map (· ++ [nl])), B) := by
  intro ls
  induction ls with
  | nil => intro B hne; exact absurd rfl hne
  | cons l ls' ih =>
    intro B _ hl
    simp only [List.map_cons, strConcat]
    rw [List.append_assoc (l ++ [nl]), List.append_assoc l [nl]]
    rw [hs_skip _ (hl l (by simp)).2.2]
    cases ls' with
    | nil =>
      show Option.map _ (headerSearch (nl :: ([] ++ (chars ("---\n") ++ B)))) = _
      rw [List.nil_append]
      have hstep : headerSearch (nl :: (chars ("---\n") ++ B)) = some ([nl], B) := by
        rw [show headerSearch (nl :: (chars ("---\n") ++ B))
            = if nl = nl ∧ lpre (chars ("---\n")) (chars ("---\n") ++ B) = true
              then some ([nl], (chars ("---\n") ++ B).drop 4)
              else (headerSearch (chars ("---\n") ++ B)).map fun p => (nl :: p.1, p.2)
          from rfl]
        rw [if_pos ⟨rfl, lpre_append _ _⟩]
        have h4 : (chars ("---\n")).length = 4 := by decide
        rw [← h4, List.drop_left]
      rw [hstep]
      simp [strConcat]
    | cons l2 t2 =>
      show Option.map _ (headerSearch (nl ::
        (strConcat ((l2 :: t2).map (· ++ [nl])) ++ (chars ("---\n") ++ B)))) = _
      simp only [headerSearch]
      rw [if_neg ?hneg]
      case hneg =>
        intro hcon
        obtain ⟨-, hlp⟩ := hcon
        obtain ⟨c2, t2', rfl⟩ : ∃ c2 t2', l2 = c2 :: t2' := by
          rcases hl2 : l2 with _ | ⟨c2, t2'⟩
          · exact absurd hl2 (hl l2 (by simp)).1
          · exact ⟨c2, t2', rfl⟩
        have hhd : c2 ≠ '-' := by
          have := (hl (c2 :: t2') (by simp)).2.1
          simpa using this
        rw [show strConcat (((c2 :: t2') :: t2).map (· ++ [nl]))
              ++ (chars ("---\n") ++ B)
            = c2 :: ((t2' ++ [nl] ++ strConcat (t2.map (· ++ [nl])))
              ++ (chars ("---\n") ++ B)) by simp [strConcat, List.append_assoc]] at hlp
        rw [show (chars ("---\n") : Str) = '-' :: chars ("--\n") from rfl] at hlp
        simp [lpre, Ne.symm hhd] at hlp
      rw [ih _ (by simp) fun l' hl' => hl l' (by simp [hl'])]
      simp

theorem pyspace_not_alpha {c : Char} (h : isPySpace c = true) : c.isAlpha = false := by
  simp only [isPySpace, Bool.or_eq_true, decide_eq_true_eq] at h
  rcases h with ((((h | h) | h) | h) | h) | h <;> subst h <;> decide

theorem plainChar_not_pyspace {c : Char} (h : plainCharB c = true) :
    isPySpace c = false := by
  cases hsp : isPySpace c with
  | false => rfl
  | true =>
    exfalso
    simp only [isPySpace, Bool.or_eq_true, decide_eq_true_eq] at hsp
    rcases hsp with ((((h2 | h2) | h2) | h2) | h2) | h2 <;> subst h2 <;>
      exact absurd h (by decide)

theorem alpha_not_pyspace {c : Char} (h : c.isAlpha = true) : isPySpace c = false := by
  cases hsp : isPySpace c with
  | false => rfl
  | true => rw [pyspace_not_alpha hsp] at h; exact absurd h (by simp)

theorem plainChar_ne {c : Char} (h : plainCharB c = true) {d : Char}
    (hd : plainCharB d = false) : c ≠ d := by
  intro hcon
  subst hcon
  rw [h] at hd
  exact absurd hd (by simp)

theorem plainSafe_parts {s : Str} (h : plainSafeB s = true) :
    (∃ c s', s = c :: s' ∧ c.isAlpha = true) ∧
      (∀ c ∈ s, plainCharB c = true) ∧ badWords.contains s = false := by
  simp only [plainSafeB, Bool.and_eq_true, Bool.not_eq_true', List.all_eq_true] at h
  obtain ⟨⟨hhead, hall⟩, hbad⟩ := h
  refine ⟨?_, hall, hbad⟩
  cases hs : s with
  | nil => rw [hs] at hhead; simp at hhead
  | cons c s' =>
    rw [hs] at hhead
    simp only [List.head?_cons] at hhead
    exact ⟨c, s', rfl, hhead⟩

theorem sof_skip_head {p0 : Char} {pt pre : Str} (X : Str) (h : ∀ c ∈ pre, c ≠ p0) :
    splitOnFirst (p0 :: pt) (pre ++ X)
      = (splitOnFirst (p0 :: pt) X).map fun p => (pre ++ p.1, p.2) := by
  induction pre with
  | nil =>
    cases hx : splitOnFirst (p0 :: pt) X with
    | none => simp [hx]
    | some p => simp [hx]
  | cons c t ih =>
    rw [List.cons_append,
      sof_none_cons (lpre_cons_false _ _ fun hh => (h c (by simp)) hh.symm),
      ih fun d hd => h d (by simp [hd])]
    cases hx : splitOnFirst (p0 :: pt) X with
    | none => simp [hx]
    | some p => simp [hx]

theorem contains_false_ne {s t : Str} {l : List Str}
    (h : l.contains s = false) (ht : t ∈ l) : s ≠ t := by
  intro hcon
  subst hcon
  rw [List.contains_eq_any_beq] at h
  have := List.any_eq_false.mp h s ht
  simp at this

theorem parseLine_render {k : Str} {v : YVal} (hk : plainSafeB k = true)
    (hv : match v with | .vstr s => plainSafeB s = true | .vnull => True) :
    parseLine (k ++ (chars (": ") ++ renderVal v)) = some (k, v) := by
  obtain ⟨-, hall, -⟩ := plainSafe_parts hk
  unfold parseLine
  rw [show (chars (": ") : Str) = ':' :: [' '] from rfl]
  rw [sof_skip_head _ fun c hc => plainChar_ne (hall c hc) (by decide)]
  rw [show (':' :: [' '] : Str) = chars (": ") from rfl]
  rw [sof_hit (by decide) (renderVal v)]
  simp only [Option.map_some']
  cases v with
  | vnull =>
    simp only [renderVal]
    rw [if_pos (by decide)]
    simp
  | vstr s =>
    simp only [renderVal]
    rw [if_neg ?hne]
    · simp
    case hne =>
      obtain ⟨-, -, hbad⟩ := plainSafe_parts hv
      have : s ≠ chars ("null") := contains_false_ne hbad (by decide)
      simp [this]

theorem splitNL_no_nl {l : Str} (h : ∀ c ∈ l, c ≠ nl) : splitNL l = [l] := by
  induction l with
  | nil => rfl
  | cons c t ih =>
    simp only [splitNL]
    rw [if_neg (h c (by simp))]
    rw [ih fun d hd => h d (by simp [hd])]

theorem splitNL_seg {l : Str} (h : ∀ c ∈ l, c ≠ nl) :
    ∀ rest, splitNL (l ++ nl :: rest) = l :: splitNL rest := by
  induction l with
  | nil =>
    intro rest
    simp only [List.nil_append, splitNL, if_pos]
  | cons c t ih =>
    intro rest
    rw [List.cons_append]
    simp only [splitNL]
    rw [if_neg (h c (by simp)), ih (fun d hd => h d (by simp [hd])) rest]

theorem splitNL_join :
    ∀ (ls : List Str), ls ≠ [] → (∀ l ∈ ls, ∀ c ∈ l, c ≠ nl) →
      splitNL (joinNL ls) = ls := by
  intro ls
  induction ls with
  | nil => intro h; exact absurd rfl h
  | cons l ls' ih =>
    intro _ hl
    cases ls' with
    | nil => exact splitNL_no_nl (hl l (by simp))
    | cons l2 t2 =>
      show splitNL (l ++ nl :: joinNL (l2 :: t2)) = _
      rw [splitNL_seg (hl l (by simp)),
        ih (by simp) fun l' hl' c hc => hl l' (by simp [hl']) c hc]

theorem strConcat_lines :
    ∀ (ls : List Str), ls ≠ [] →
      strConcat (ls.map (· ++ [nl])) = joinNL ls ++ [nl] := by
  intro ls
  induction ls with
  | nil => intro h; exact absurd rfl h
  | cons l ls' ih =>
    intro _
    cases ls' with
    | nil => simp [strConcat, joinNL]
    | cons l2 t2 =>
      show (l ++ [nl]) ++ strConcat ((l2 :: t2).map (· ++ [nl]))
          = (l ++ nl :: joinNL (l2 :: t2)) ++ [nl]
      rw [ih (by simp)]
      simp [List.append_assoc]

theorem joinNL_ne_nil {l : Str} (hne : l ≠ []) (ls : List Str) :
    joinNL (l :: ls) ≠ [] := by
  cases ls with
  | nil => exact hne
  | cons l2 t2 =>
    show l ++ nl :: joinNL (l2 :: t2) ≠ []
    simp

theorem joinNL_head {l : Str} {c : Char} (hl : l.head? = some c) (ls : List Str) :
    (joinNL (l :: ls)).head? = some c := by
  cases l with
  | nil => simp at hl
  | cons c0 t0 =>
    simp only [List.head?_cons, Option.some.injEq] at hl
    subst hl
    cases ls with
    | nil => rfl
    | cons l2 t2 => rfl

theorem joinNL_last_not_space :
    ∀ (ls : List Str), (∀ l ∈ ls, l ≠ []) →
      (∀ l ∈ ls, ∀ c, l.getLast? = some c → isPySpace c = false) →
      ∀ c, (joinNL ls).getLast? = some c → isPySpace c = false := by
  intro ls
  induction ls with
  | nil => intro _ _ c hc; simp [joinNL] at hc
  | cons l ls' ih =>
    intro hne hlast c hc
    cases ls' with
    | nil => exact hlast l (by simp) c hc
    | cons l2 t2 =>
      have hjoin : (joinNL (l :: l2 :: t2)).getLast?
          = (joinNL (l2 :: t2)).getLast? := by
        show (l ++ nl :: joinNL (l2 :: t2)).getLast? = _
        rw [show (nl :: joinNL (l2 :: t2) : Str) = [nl] ++ joinNL (l2 :: t2) from rfl]
        rw [← List.append_assoc]
        exact List.getLast?_append_of_ne_nil _ (joinNL_ne_nil (hne l2 (by simp)) t2)
      rw [hjoin] at hc
      exact ih (fun l' h' => hne l' (by simp [h']))
        (fun l' h' => hlast l' (by simp [h'])) c hc

theorem pyStrip_eq_self {s : Str}
    (hh : ∀ c, s.head? = some c → isPySpace c = false)
    (hl : ∀ c, s.getLast? = some c → isPySpace c = false) :
    pyStrip s = s := by
  unfold pyStrip
  rw [dropWhile_eq_self_of_head hh]
  rw [dropWhile_eq_self_of_head fun c hc => hl c (by rwa [List.head?_reverse] at hc)]
  exact List.reverse_reverse s

theorem parseLines_render :
    ∀ (pairs acc : List (Str × YVal)),
      (∀ kv ∈ pairs, plainSafeB kv.1 = true ∧ yvalOk kv.2) →
      keysDistinctB pairs = true →
      (∀ kv ∈ pairs, ∀ kv' ∈ acc, ¬(kv'.1 == kv.1) = true) →
      parseLines acc (pairs.map fun kv => kv.1 ++ (chars (": ") ++ renderVal kv.2))
        = .ok (acc ++ pairs) := by
  intro pairs
  induction pairs with
  | nil => intro acc _ _ _; simp [parseLines]
  | cons kv rest ih =>
    intro acc hok hd hf
    obtain ⟨k, v⟩ := kv
    simp only [List.map_cons, parseLines]
    rw [parseLine_render (hok (k, v) (by simp)).1 (hok (k, v) (by simp)).2]
    simp only
    have hstep : insertDict acc k v = acc ++ [(k, v)] :=
      insertDict_fresh v fun kv' hkv' => hf (k, v) (by simp) kv' hkv'
    rw [hstep]
    simp only [keysDistinctB, Bool.and_eq_true, Bool.not_eq_true'] at hd
    obtain ⟨hany, hd'⟩ := hd
    rw [ih (acc ++ [(k, v)]) (fun kv2 h2 => hok kv2 (by simp [h2])) hd' ?hfr]
    · simp
    case hfr =>
      intro kv2 hkv2 kv' hkv'
      rcases List.mem_append.mp hkv' with h1 | h1
      · exact hf kv2 (by simp [hkv2]) kv' h1
      · simp only [List.mem_singleton] at h1
        subst h1
        have hne := List.any_eq_false.mp hany kv2 hkv2
        simp only [Bool.not_eq_true]
        rw [beq_eq_false_iff_ne]
        intro hcon
        rw [← hcon] at hne
        simp at hne

/-! ## Round trip (C1): body side -/

theorem tryRole_hit {r inner cnt aft : Str}
    (hsp : splitOnFirst (closerOf r) inner = some (cnt, aft)) :
    tryRole r (openerOf r ++ inner) = some (r, cnt, aft) := by
  unfold tryRole
  rw [if_pos (lpre_append _ _), List.drop_left, hsp]

theorem tryRole_miss {r0 s : Str} (h : lpre (openerOf r0) s = false) :
    tryRole r0 s = none := by
  unfold tryRole
  rw [h]
  simp

theorem lpre_op_sys_user (inner : Str) :
    lpre (openerOf (chars ("system"))) (openerOf (chars ("user")) ++ inner) = false := by
  rw [(by decide : openerOf (chars ("system")) = '<' :: 's' :: chars ("ystem>")),
    (by decide : openerOf (chars ("user")) = '<' :: 'u' :: chars ("ser>")),
    List.cons_append, List.cons_append]
  exact lpre_ne_second _ _ (by decide)

theorem lpre_op_sys_asst (inner : Str) :
    lpre (openerOf (chars ("system"))) (openerOf (chars ("assistant")) ++ inner)
      = false := by
  rw [(by decide : openerOf (chars ("system")) = '<' :: 's' :: chars ("ystem>")),
    (by decide : openerOf (chars ("assistant")) = '<' :: 'a' :: chars ("ssistant>")),
    List.cons_append, List.cons_append]
  exact lpre_ne_second _ _ (by decide)

theorem lpre_op_user_asst (inner : Str) :
    lpre (openerOf (chars ("user"))) (openerOf (chars ("assistant")) ++ inner)
      = false := by
  rw [(by decide : openerOf (chars ("user")) = '<' :: 'u' :: chars ("ser>")),
    (by decide : openerOf (chars ("assistant")) = '<' :: 'a' :: chars ("ssistant>")),
    List.cons_append, List.cons_append]
  exact lpre_ne_second _ _ (by decide)

theorem tryTag_hit_system {inner cnt aft : Str}
    (hsp : splitOnFirst (closerOf (chars ("system"))) inner = some (cnt, aft)) :
    tryTag (openerOf (chars ("system")) ++ inner)
      = some (chars ("system"), cnt, aft) := by
  unfold tryTag
  rw [tryRole_hit hsp]
  rfl

theorem tryTag_hit_user {inner cnt aft : Str}
    (hsp : splitOnFirst (closerOf (chars ("user"))) inner = some (cnt, aft)) :
    tryTag (openerOf (chars ("user")) ++ inner)
      = some (chars ("user"), cnt, aft) := by
  unfold tryTag
  rw [tryRole_miss (lpre_op_sys_user inner), tryRole_hit hsp]
  rfl

theorem tryTag_hit_assistant {inner cnt aft : Str}
    (hsp : splitOnFirst (closerOf (chars ("assistant"))) inner = some (cnt, aft)) :
    tryTag (openerOf (chars ("assistant")) ++ inner)
      = some (chars ("assistant"), cnt, aft) := by
  unfold tryTag
  rw [tryRole_miss (lpre_op_sys_asst inner), tryRole_miss (lpre_op_user_asst inner),
    tryRole_hit hsp]
  rfl

theorem tagScan_block {m : Message} {rest : Str}
    (hrole : m.role = chars ("system") ∨ m.role = chars ("user")
      ∨ m.role = chars ("assistant"))
    (hsp : splitOnFirst (closerOf m.role)
        (nl :: m.content ++ nl :: closerOf m.role ++ rest)
      = some (nl :: m.content ++ [nl], rest)) :
    tagScan (renderBlock m ++ rest)
      = (m.role, nl :: m.content ++ [nl]) :: tagScan rest := by
  have hb : renderBlock m ++ rest
      = openerOf m.role ++ (nl :: m.content ++ nl :: closerOf m.role ++ rest) := by
    simp [renderBlock, List.append_assoc]
  rw [hb]
  rcases hrole with h | h | h <;> rw [h] at hsp ⊢
  · exact tagScan_of_tryTag (tryTag_hit_system hsp)
  · exact tagScan_of_tryTag (tryTag_hit_user hsp)
  · exact tagScan_of_tryTag (tryTag_hit_assistant hsp)

theorem tagScan_blocks :
    ∀ (ms : List Message) (tail : Str),
      blocksOkB ms tail = true →
      (∀ m ∈ ms, m.role = chars ("system") ∨ m.role = chars ("user")
        ∨ m.role = chars ("assistant")) →
      tagScan (joinNL (ms.map renderBlock) ++ tail)
        = ms.map (fun m => (m.role, nl :: m.content ++ [nl])) ++ tagScan tail := by
  intro ms
  induction ms with
  | nil => intro tail _ _; simp [joinNL]
  | cons m ms' ih =>
    intro tail hb hr
    simp only [blocksOkB, Bool.and_eq_true, beq_iff_eq] at hb
    obtain ⟨⟨hsp, -⟩, hrec⟩ := hb
    cases ms' with
    | nil =>
      have hsp' : splitOnFirst (closerOf m.role)
          (nl :: m.content ++ nl :: closerOf m.role ++ tail)
          = some (nl :: m.content ++ [nl], tail) := hsp
      show tagScan (renderBlock m ++ tail) = _
      rw [tagScan_block (hr m (by simp)) hsp']
      simp
    | cons m2 t2 =>
      have hsp' : splitOnFirst (closerOf m.role)
          (nl :: m.content ++ nl :: closerOf m.role
            ++ (nl :: (joinNL ((m2 :: t2).map renderBlock) ++ tail)))
          = some (nl :: m.content ++ [nl],
              nl :: (joinNL ((m2 :: t2).map renderBlock) ++ tail)) := hsp
      have hshape : joinNL ((m :: m2 :: t2).map renderBlock) ++ tail
          = renderBlock m ++ (nl :: (joinNL ((m2 :: t2).map renderBlock) ++ tail)) := by
        show (renderBlock m ++ nl :: joinNL ((m2 :: t2).map renderBlock)) ++ tail = _
        simp [List.append_assoc]
      rw [hshape, tagScan_block (hr m (by simp)) hsp',
        tagScan_cons_of_none (tryTag_not_open (by decide)),
        ih tail hrec fun m' h' => hr m' (by simp [h'])]
      simp

theorem optMapM_map {α β γ : Type} (f : β → Option γ) (g : α → β) (hfun : α → γ) :
    ∀ (l : List α), (∀ x ∈ l, f (g x) = some (hfun x)) →
      optMapM f (l.map g) = some (l.map hfun) := by
  intro l
  induction l with
  | nil => intro _; rfl
  | cons a t ih =>
    intro h
    simp only [List.map_cons, optMapM]
    rw [h a (by simp), ih fun x hx => h x (by simp [hx])]

theorem extract_body_roundtrip (ms : List Message)
    (hcd : splitOnFirst cdOpen (joinNL (ms.map renderBlock) ++ [nl]) = none)
    (hblocks : blocksOkB ms [nl] = true)
    (hroles : ∀ m ∈ ms, m.role = chars ("system") ∨ m.role = chars ("user")
      ∨ m.role = chars ("assistant"))
    (hrestore : ∀ m ∈ ms,
      restoreScan [] (nl :: m.content ++ [nl]) = some (nl :: m.content ++ [nl]))
    (htrim : ∀ m ∈ ms, pyStrip m.content = m.content) :
    extractMessages (joinNL (ms.map renderBlock) ++ [nl]) = some ms := by
  simp only [extractMessages]
  rw [cdataAux_of_no_open 0 hcd]
  simp only
  rw [tagScan_blocks ms [nl] hblocks hroles,
    (by decide : tagScan [nl] = ([] : List (Str × Str))), List.append_nil]
  rw [optMapM_map _ _ (fun m => m) ms ?hall]
  · simp
  case hall =>
    intro m hm
    simp only
    rw [hrestore m hm]
    simp only [Option.map_some']
    rw [show (nl :: m.content ++ [nl] : Str) = nl :: (m.content ++ [nl]) from
      List.cons_append _ _ _]
    rw [pyStrip_cons_space _ (by decide), pyStrip_append_space _ (by decide),
      htrim m hm]

/-! ## Round trip (C1): assembly helpers -/

theorem blocksOkB_restore :
    ∀ (ms : List Message) (tail : Str), blocksOkB ms tail = true →
      ∀ m ∈ ms, restoreScan [] (nl :: m.content ++ [nl])
        = some (nl :: m.content ++ [nl]) := by
  intro ms
  induction ms with
  | nil => intro tail _ m hm; simp at hm
  | cons m0 ms' ih =>
    intro tail hb m hm
    simp only [blocksOkB, Bool.and_eq_true, beq_iff_eq] at hb
    obtain ⟨⟨-, hres⟩, hrec⟩ := hb
    rcases List.mem_cons.mp hm with rfl | hm'
    · exact hres
    · exact ih tail hrec m hm'

theorem yamlDump_lines (pairs : List (Str × YVal)) :
    yamlDump pairs
      = strConcat ((pairs.map fun kv => kv.1 ++ (chars (": ") ++ renderVal kv.2)).map
          (· ++ [nl])) := by
  rw [List.map_map]
  unfold yamlDump
  congr 1
  apply List.map_eq_map_iff.mpr
  intro kv _
  simp [List.append_assoc]

theorem line_props {k : Str} {v : YVal} (hk : plainSafeB k = true)
    (hv : yvalOk v) :
    (∃ c, (k ++ (chars (": ") ++ renderVal v)).head? = some c ∧ c.isAlpha = true) ∧
      (∀ c ∈ k ++ (chars (": ") ++ renderVal v), c ≠ nl) := by
  obtain ⟨⟨c0, k', rfl, hc0⟩, hall, -⟩ := plainSafe_parts hk
  constructor
  · exact ⟨c0, rfl, hc0⟩
  · intro c hc
    rcases List.mem_append.mp hc with h1 | h1
    · exact plainChar_ne (hall c h1) (by decide)
    · rcases List.mem_append.mp h1 with h2 | h2
      · rw [show (chars (": ") : Str) = [':', ' '] from rfl] at h2
        simp only [List.mem_cons, List.not_mem_nil, or_false] at h2
        rcases h2 with rfl | rfl <;> decide
      · cases v with
        | vnull =>
          simp only [renderVal] at h2
          rw [show (chars ("null") : Str) = ['n', 'u', 'l', 'l'] from rfl] at h2
          simp only [List.mem_cons, List.not_mem_nil, or_false] at h2
          rcases h2 with rfl | rfl | rfl | rfl <;> decide
        | vstr s =>
          simp only [renderVal] at h2
          obtain ⟨-, hall2, -⟩ := plainSafe_parts hv
          exact plainChar_ne (hall2 c h2) (by decide)

theorem renderVal_ne_nil {v : YVal} (hv : yvalOk v) :
    renderVal v ≠ [] := by
  cases v with
  | vnull => decide
  | vstr s =>
    obtain ⟨⟨c, s', rfl, -⟩, -, -⟩ := plainSafe_parts hv
    simp [renderVal]

theorem line_last_not_space {k : Str} {v : YVal} (hv : yvalOk v) :
    ∀ c, (k ++ (chars (": ") ++ renderVal v)).getLast? = some c →
      isPySpace c = false := by
  intro c hc
  rw [List.getLast?_append_of_ne_nil k
    (show chars (": ") ++ renderVal v ≠ [] by simp [chars])] at hc
  rw [List.getLast?_append_of_ne_nil (chars (": ")) (renderVal_ne_nil hv)] at hc
  cases v with
  | vnull =>
    simp only [renderVal] at hc
    rw [(by decide : (chars ("null")).getLast? = some 'l')] at hc
    simp only [Option.some.injEq] at hc
    subst hc
    decide
  | vstr s =>
    simp only [renderVal] at hc
    obtain ⟨-, hall, -⟩ := plainSafe_parts hv
    have hm : c ∈ s := List.mem_of_mem_getLast? (by rw [Option.mem_def]; exact hc)
    exact plainChar_not_pyspace (hall c hm)

theorem strip_header (ls : List Str) (hne : ls ≠ [])
    (hhead : ∀ l ∈ ls, ∃ c, l.head? = some c ∧ c.isAlpha = true)
    (hlast : ∀ l ∈ ls, ∀ c, l.getLast? = some c → isPySpace c = false) :
    pyStrip (strConcat (ls.map (· ++ [nl]))) = joinNL ls := by
  rw [strConcat_lines ls hne, pyStrip_append_space _ (by decide)]
  obtain ⟨l₁, ls', rfl⟩ : ∃ l₁ ls', ls = l₁ :: ls' := by
    cases ls with
    | nil => exact absurd rfl hne
    | cons a b => exact ⟨a, b, rfl⟩
  obtain ⟨c₁, hc₁, hca⟩ := hhead l₁ (by simp)
  apply pyStrip_eq_self
  · intro c hc
    rw [joinNL_head hc₁] at hc
    simp only [Option.some.injEq] at hc
    subst hc
    exact alpha_not_pyspace hca
  · apply joinNL_last_not_space
    · intro l hl
      obtain ⟨c, hc, -⟩ := hhead l hl
      cases l with
      | nil => simp at hc
      | cons a b => simp
    · exact hlast

theorem load_dump_header (pairs : List (Str × YVal))
    (hok : ∀ kv ∈ pairs, plainSafeB kv.1 = true ∧ yvalOk kv.2)
    (hd : keysDistinctB pairs = true) (hne : pairs ≠ []) (B : Str) :
    shapeSplit (chars ("---\n") ++ (yamlDump pairs ++ (chars ("---\n") ++ B)))
      = some (yamlDump pairs, B) ∧
    parseYaml (yamlDump pairs) = .ok pairs := by
  have hlsne : (pairs.map fun kv => kv.1 ++ (chars (": ") ++ renderVal kv.2)) ≠ [] := by
    cases pairs with
    | nil => exact absurd rfl hne
    | cons a b => simp
  have hlineP : ∀ l ∈ pairs.map fun kv => kv.1 ++ (chars (": ") ++ renderVal kv.2),
      (∃ c, l.head? = some c ∧ c.isAlpha = true) ∧ ∀ c ∈ l, c ≠ nl := by
    intro l hl
    obtain ⟨kv, hkv, rfl⟩ := List.mem_map.mp hl
    exact line_props (hok kv hkv).1 (hok kv hkv).2
  have hheadP : ∀ l ∈ pairs.map fun kv => kv.1 ++ (chars (": ") ++ renderVal kv.2),
      ∃ c, l.head? = some c ∧ c.isAlpha = true := fun l hl => (hlineP l hl).1
  have hlastP : ∀ l ∈ pairs.map fun kv => kv.1 ++ (chars (": ") ++ renderVal kv.2),
      ∀ c, l.getLast? = some c → isPySpace c = false := by
    intro l hl
    obtain ⟨kv, hkv, rfl⟩ := List.mem_map.mp hl
    exact line_last_not_space (hok kv hkv).2
  have hlprops : ∀ l ∈ pairs.map fun kv => kv.1 ++ (chars (": ") ++ renderVal kv.2),
      l ≠ [] ∧ l.head? ≠ some '-' ∧ ∀ c ∈ l, c ≠ nl := by
    intro l hl
    obtain ⟨⟨c, hc, hca⟩, hnl⟩ := hlineP l hl
    refine ⟨?_, ?_, hnl⟩
    · cases l with
      | nil => simp at hc
      | cons a b => simp
    · rw [hc]
      intro hcon
      simp only [Option.some.injEq] at hcon
      subst hcon
      exact absurd hca (by decide)
  constructor
  · rw [yamlDump_lines]
    simp only [shapeSplit]
    have hdw : (chars ("---\n")
        ++ (strConcat ((pairs.map fun kv =>
              kv.1 ++ (chars (": ") ++ renderVal kv.2)).map (· ++ [nl]))
          ++ (chars ("---\n") ++ B))).dropWhile isPySpace
        = chars ("---\n")
          ++ (strConcat ((pairs.map fun kv =>
                kv.1 ++ (chars (": ") ++ renderVal kv.2)).map (· ++ [nl]))
            ++ (chars ("---\n") ++ B)) := by
      rw [show (chars ("---\n") : Str) = '-' :: chars ("--\n") from rfl,
        List.cons_append, List.dropWhile_cons_of_neg (by decide)]
    rw [hdw, if_pos (lpre_append _ _),
      ← (by decide : (chars ("---\n")).length = 4), List.drop_left]
    exact hs_lines _ B hlsne hlprops
  · rw [yamlDump_lines]
    simp only [parseYaml]
    rw [strip_header _ hlsne hheadP hlastP]
    rw [if_neg ?hjne]
    case hjne =>
      obtain ⟨l₁, ls', hls⟩ : ∃ l₁ ls',
          (pairs.map fun kv => kv.1 ++ (chars (": ") ++ renderVal kv.2))
            = l₁ :: ls' := by
        cases hp : pairs.map fun kv => kv.1 ++ (chars (": ") ++ renderVal kv.2) with
        | nil => exact absurd hp hlsne
        | cons a b => exact ⟨a, b, rfl⟩
      rw [hls]
      apply joinNL_ne_nil
      have := hlprops l₁ (by rw [hls]; simp)
      exact this.1
    rw [splitNL_join _ hlsne fun l hl => (hlineP l hl).2]
    exact parseLines_render pairs [] hok hd (by simp)

/-- Claim C1, counterexample: the claim's validity conditions (roles in the
three-role set, trimmed contents) are not enough for a round trip.  A user
message whose content is the literal text `</user>` dumps to a body in which
the first closing tag belongs to the content, so re-parsing truncates the
message to empty content. -/
theorem c1_counterexample :
    Prompt.load (Prompt.dump
        ⟨some (chars ("m")), [⟨chars ("user"), chars ("</user>")⟩], []⟩)
      = .ok ⟨some (chars ("m")), [⟨chars ("user"), []⟩], []⟩ ∧
    Prompt.load (Prompt.dump
        ⟨some (chars ("m")), [⟨chars ("user"), chars ("</user>")⟩], []⟩)
      ≠ .ok ⟨some (chars ("m")), [⟨chars ("user"), chars ("</user>")⟩], []⟩ := by
  constructor
  · decide
  · decide

/-- Claim C1 as amended: `Prompt.load (Prompt.dump p) = ok p` for every
document whose header scalars are plain-safe strings (or an absent model),
whose metadata keys are distinct and distinct from `model`, and whose
messages have recognized roles and trimmed contents that do not fake a
closing tag, a CDATA opener, or a CDATA placeholder inside the dumped body
(`promptSafeB` states these conditions on the embedded definitions). -/
theorem c1_roundtrip (p : Prompt) (hs : promptSafeB p = true) :
    Prompt.load (Prompt.dump p) = .ok p := by
  obtain ⟨pmod, pmsgs, pmeta⟩ := p
  simp only [promptSafeB, Bool.and_eq_true, List.all_eq_true, beq_iff_eq] at hs
  obtain ⟨⟨⟨⟨⟨hmod, hmeta⟩, hdist⟩, hmsgs⟩, hblocks⟩, hcd⟩ := hs
  have hroles : ∀ m ∈ pmsgs, m.role = chars ("system") ∨ m.role = chars ("user")
      ∨ m.role = chars ("assistant") := by
    intro m hm
    have := hmsgs m hm
    simp only [msgOkB, Bool.and_eq_true, Bool.or_eq_true, beq_iff_eq] at this
    tauto
  have htrim : ∀ m ∈ pmsgs, pyStrip m.content = m.content := by
    intro m hm
    have := hmsgs m hm
    simp only [msgOkB, Bool.and_eq_true, beq_iff_eq] at this
    exact this.2
  have hnm : ∀ kv ∈ pmeta, ¬(kv.1 == chars ("model")) = true := by
    intro kv hkv
    have := hmeta kv hkv
    simp only [lineOkB, Bool.and_eq_true] at this
    have h2 := this.1.2
    simp only [Bool.not_eq_true'] at h2
    simp [h2]
  have hvals : ∀ kv ∈ pmeta, plainSafeB kv.1 = true ∧ yvalOk kv.2 := by
    intro kv hkv
    have := hmeta kv hkv
    simp only [lineOkB, Bool.and_eq_true] at this
    refine ⟨this.1.1, ?_⟩
    have h3 := this.2
    cases hv : kv.2 with
    | vnull => trivial
    | vstr s =>
      rw [hv] at h3
      simp only [yvalOk]
      simpa using h3
  have hmvok : yvalOk (modelVal pmod) := by
    cases pmod with
    | none => trivial
    | some m =>
      simp only [modelVal, yvalOk]
      exact hmod
  have hok : ∀ kv ∈ ((chars ("model"), modelVal pmod) :: pmeta),
      plainSafeB kv.1 = true ∧ yvalOk kv.2 := by
    intro kv hkv
    rcases List.mem_cons.mp hkv with rfl | h
    · refine ⟨?_, hmvok⟩
      show plainSafeB (chars ("model")) = true
      decide
    · exact hvals kv h
  have hdistp : keysDistinctB ((chars ("model"), modelVal pmod) :: pmeta) = true := by
    simp only [keysDistinctB, Bool.and_eq_true]
    refine ⟨?_, hdist⟩
    simp only [Bool.not_eq_true']
    apply List.any_eq_false.mpr
    intro kv hkv
    have := hnm kv hkv
    simpa using this
  have hpairs : headerPairs (Prompt.mk pmod pmsgs pmeta)
      = (chars ("model"), modelVal pmod) :: pmeta := headerPairs_eq hdist hnm
  have hhdr := load_dump_header ((chars ("model"), modelVal pmod) :: pmeta)
    hok hdistp (by simp) (joinNL (pmsgs.map renderBlock) ++ [nl])
  have hdmp : Prompt.dump (Prompt.mk pmod pmsgs pmeta)
      = chars ("---\n") ++ (yamlDump ((chars ("model"), modelVal pmod) :: pmeta)
        ++ (chars ("---\n") ++ (joinNL (pmsgs.map renderBlock) ++ [nl]))) := by
    unfold Prompt.dump
    rw [hpairs]
    simp [List.append_assoc]
  have hext : extractMessages (joinNL (pmsgs.map renderBlock) ++ [nl]) = some pmsgs :=
    extract_body_roundtrip pmsgs hcd hblocks hroles
      (blocksOkB_restore pmsgs [nl] hblocks) htrim
  rw [hdmp]
  simp only [Prompt.load, hhdr.1, hhdr.2, hext]
  have hlk : List.lookup (chars ("model")) ((chars ("model"), modelVal pmod) :: pmeta)
      = some (modelVal pmod) := by
    simp [List.lookup]
  rw [hlk]
  have hflt : (((chars ("model"), modelVal pmod) :: pmeta).filter
      fun kv => !(kv.1 == chars ("model"))) = pmeta := by
    rw [List.filter_cons]
    simp only [beq_self_eq_true, Bool.not_true, Bool.false_eq_true, if_false]
    apply List.filter_eq_self.mpr
    intro kv hkv
    have := hnm kv hkv
    simpa using this
  rw [hflt]
  cases pmod with
  | none => rfl
  | some m => rfl

/-- Claim C1 witness: the amended round trip at a concrete safe document. -/
theorem c1_witness :
    Prompt.load (Prompt.dump ⟨some (chars ("gpt-4")),
        [⟨chars ("system"), chars ("You are x.")⟩, ⟨chars ("user"), chars ("Hello!")⟩],
        [(chars ("temperature"), .vstr (chars ("high")))]⟩)
      = .ok ⟨some (chars ("gpt-4")),
          [⟨chars ("system"), chars ("You are x.")⟩, ⟨chars ("user"), chars ("Hello!")⟩],
          [(chars ("temperature"), .vstr (chars ("high")))]⟩ :=
  c1_roundtrip _ (by decide)

/-- Claim C9, counterexample: for a document with an absent model but a
metadata entry keyed `model`, the dict update `{"model": None, **metadata}`
overwrites the first entry's value in place — the header has a single
`model: x` line, not a null-valued `model:` line followed by the metadata
key. -/
theorem c9_counterexample :
    (headerPairs ⟨none, [], [(chars ("model"), .vstr (chars ("x")))]⟩).map Prod.fst
        = [chars ("model")] ∧
    yamlDump (headerPairs ⟨none, [], [(chars ("model"), .vstr (chars ("x")))]⟩)
        = chars ("model: x\n") ∧
    yamlDump (headerPairs ⟨none, [], [(chars ("model"), .vstr (chars ("x")))]⟩)
        ≠ chars ("model: null\n") ++ yamlDump [(chars ("model"), .vstr (chars ("x")))] := by
  refine ⟨by decide, by decide, by decide⟩
